import Mathlib

/-!
Shallow embedding of the fraud-detection pipeline
(`code/ingest_and_split.py`, `code/generate_categorical_encoding_dict.py`,
`code/generate_model_dataset.py`) and proofs about its partitioning,
frequency-encoding, serialization and dataset-assembly behaviour.

Machine doubles are modelled as exact rationals (`ℚ`); DuckDB's 64-bit
`HASH` is modelled as a concrete deterministic hash reduced mod `2 ^ 64`;
SQL `NULL` is modelled by `Option`.
-/

set_option maxHeartbeats 1000000

namespace FraudPipeline

/-! ## Ingestion and hash split (`ingest_and_split.py`) -/

/-- A raw CSV transactions row as consumed by `read_csv_auto` inside
`load_source_txns`.  `transactionTime` is kept as the raw text of the cell
(`none` for an empty cell) because its conversion to `TIMESTAMP` can fail;
the remaining columns are carried through already typed, since no claim
turns on their parsing. -/
structure RawTxnRow where
  transactionTime : Option String
  eventId : Option String
  accountNumber : Option String
  merchantId : Option String
  mcc : Option String
  merchantCountry : Option String
  merchantZip : Option String
  posEntryMode : Option String
  transactionAmount : Option ℚ
  availableCash : Option ℚ
deriving Repr, DecidableEq

/-- A loaded transactions row (table `txns` before the window function adds
`random_row_order`).  The `TIMESTAMP` column is represented by its canonical
text `YYYY-MM-DD HH:MM:SS`; `CAST(transactionTime AS STRING)` is then the
identity on the stored text. -/
structure Txn where
  transactionTime : Option String
  eventId : Option String
  accountNumber : Option String
  merchantId : Option String
  mcc : Option String
  merchantCountry : Option String
  merchantZip : Option String
  posEntryMode : Option String
  transactionAmount : Option ℚ
  availableCash : Option ℚ
deriving Repr, DecidableEq

/-- Models DuckDB's cast of CSV text to `TIMESTAMP` for the canonical
`YYYY-MM-DD HH:MM:SS` layout used by the source data; any other shape is
malformed and the cast fails. -/
def isValidTimestamp (s : String) : Bool :=
  match s.data with
  | [y1, y2, y3, y4, g1, m1, m2, g2, d1, d2, sp, h1, h2, c1, n1, n2, c2, s1, s2] =>
      y1.isDigit && y2.isDigit && y3.isDigit && y4.isDigit && (g1 == '-') &&
      m1.isDigit && m2.isDigit && (g2 == '-') && d1.isDigit && d2.isDigit &&
      (sp == ' ') && h1.isDigit && h2.isDigit && (c1 == ':') &&
      n1.isDigit && n2.isDigit && (c2 == ':') && s1.isDigit && s2.isDigit
  | _ => false

/-- Converting one CSV row to a typed `txns` row: the only conversion that can
fail in the claims' scope is the `TIMESTAMP` cast; an absent cell loads as
SQL `NULL`.  Note `eventId` is loaded as `VARCHAR` with no checks at all. -/
def parseRawRow (r : RawTxnRow) : Except String Txn :=
  match r.transactionTime with
  | some s =>
      if isValidTimestamp s then
        Except.ok ⟨some s, r.eventId, r.accountNumber, r.merchantId, r.mcc,
          r.merchantCountry, r.merchantZip, r.posEntryMode,
          r.transactionAmount, r.availableCash⟩
      else
        Except.error "Conversion Error: Could not convert string to TIMESTAMP"
  | none =>
      Except.ok ⟨none, r.eventId, r.accountNumber, r.merchantId, r.mcc,
        r.merchantCountry, r.merchantZip, r.posEntryMode,
        r.transactionAmount, r.availableCash⟩

/-- The typed row a raw row converts to when its timestamp is acceptable. -/
def rawToTxn (r : RawTxnRow) : Txn :=
  ⟨r.transactionTime, r.eventId, r.accountNumber, r.merchantId, r.mcc,
    r.merchantCountry, r.merchantZip, r.posEntryMode,
    r.transactionAmount, r.availableCash⟩

/-- CSV conversion over the whole file: the load aborts at the first failing
cast, exactly as `read_csv_auto` does without `ignore_errors`. -/
def parseRawRows : List RawTxnRow → Except String (List Txn)
  | [] => Except.ok []
  | r :: rs =>
      match parseRawRow r with
      | Except.error e => Except.error e
      | Except.ok t =>
          match parseRawRows rs with
          | Except.error e => Except.error e
          | Except.ok ts => Except.ok (t :: ts)

/-- Models DuckDB's deterministic 64-bit `HASH` of a string: a concrete
polynomial hash reduced mod `2 ^ 64`.  Only its determinism matters for the
claims; the exact mixing is not load-bearing. -/
def hashStr (s : String) : Nat :=
  s.data.foldl (fun h c => (h * 31 + c.toNat) % 2 ^ 64) 5381

/-- DuckDB's `CONCAT` skips `NULL` arguments (it does not return `NULL`). -/
def sqlConcat3 (a b : Option String) (c : String) : String :=
  a.getD "" ++ b.getD "" ++ c

/-- The sort key of `ROW_NUMBER() OVER (ORDER BY HASH(CONCAT(CAST(transactionTime
AS STRING), eventId, split_hash)))`: it depends only on the timestamp text and
the id, never on the other columns. -/
def splitKey (splitHash : String) (t : Txn) : Nat :=
  hashStr (sqlConcat3 t.transactionTime t.eventId splitHash)

/-- The engine's sort of the rows by ascending hash key.  The `ORDER BY`
names no secondary key, so ties keep the engine's incoming order; this is
modelled by the stable insertion sort. -/
def sortedTxns (splitHash : String) (rows : List Txn) : List Txn :=
  rows.insertionSort (fun a b => splitKey splitHash a ≤ splitKey splitHash b)

/-- Assign `random_row_order`: rank the sorted rows `1..N`. -/
def rankRows (splitHash : String) (rows : List Txn) : List (Txn × Nat) :=
  (sortedTxns splitHash rows).zip
    (List.range' 1 (sortedTxns splitHash rows).length)

/-- `load_source_txns`: convert the CSV rows and attach `random_row_order`. -/
def loadSourceTxns (splitHash : String) (rows : List RawTxnRow) :
    Except String (List (Txn × Nat)) :=
  match parseRawRows rows with
  | Except.error e => Except.error e
  | Except.ok ts => Except.ok (rankRows splitHash ts)

/-- `np.max` / SQL `MAX` over naturals (`0` on an empty list, matching the
degenerate `NULL` aggregate only in that no positive rank is produced). -/
def maxNat (l : List Nat) : Nat := l.foldr Nat.max 0

/-- `row_count = MAX(random_row_order)` over the ranked table. -/
def rowCountOf (ranked : List (Txn × Nat)) : Nat :=
  maxNat (ranked.map Prod.snd)

/-- `to_validate_row_count = np.floor(row_count * validate_fraction).astype(int)`
(exact, since doubles are modelled as rationals). -/
def toValidateCount (validateFraction : ℚ) (ranked : List (Txn × Nat)) : Nat :=
  (⌊(rowCountOf ranked : ℚ) * validateFraction⌋).toNat

/-- `split_txns_and_save` on the ranked table: with `validate_fraction > -0.5`
the fraction is asserted to lie in `(0, 1)`, `floor(row_count * fraction)` rows
(by rank) go to validation and the rest to training; otherwise only a training
output equal to the whole table is produced and no validation output exists.
The result pairs the training rows with the optional validation rows. -/
def splitTxnsAndSave (validateFraction : ℚ) (ranked : List (Txn × Nat)) :
    Except String (List Txn × Option (List Txn)) :=
  if -1/2 < validateFraction then
    if 0 < validateFraction ∧ validateFraction < 1 then
      Except.ok
        ((ranked.filter
            (fun p => decide (toValidateCount validateFraction ranked < p.2))).map Prod.fst,
          some ((ranked.filter
            (fun p => decide (p.2 ≤ toValidateCount validateFraction ranked))).map Prod.fst))
    else
      Except.error "AssertionError: validate_fraction must lie in (0, 1)"
  else
    Except.ok (ranked.map Prod.fst, none)

/-- The validation rows the split writes for a population, or `none` when no
validation output is produced at all (sentinel branch or failed assert). -/
def validationOutput (splitHash : String) (f : ℚ) (rows : List Txn) :
    Option (List Txn) :=
  match splitTxnsAndSave f (rankRows splitHash rows) with
  | Except.ok (_, v) => v
  | Except.error _ => none

/-! ### Ranking lemmas -/

theorem length_filter_zip_le {α : Type} (xs : List α) (s k : Nat) :
    ((xs.zip (List.range' s xs.length)).filter (fun p => decide (p.2 ≤ k))).length
      = min (k + 1 - s) xs.length := by
  induction xs generalizing s with
  | nil => simp
  | cons x t ih =>
    rw [List.length_cons, List.range'_succ, List.zip_cons_cons, List.filter_cons]
    by_cases h : s ≤ k
    · simp [h, ih]
      omega
    · simp [h, ih]
      omega

theorem length_filter_zip_gt {α : Type} (xs : List α) (s k : Nat) :
    ((xs.zip (List.range' s xs.length)).filter (fun p => decide (k < p.2))).length
      = xs.length - min (k + 1 - s) xs.length := by
  induction xs generalizing s with
  | nil => simp
  | cons x t ih =>
    rw [List.length_cons, List.range'_succ, List.zip_cons_cons, List.filter_cons]
    by_cases h : k < s
    · simp [h, ih]
      omega
    · simp [h, ih]
      omega

theorem maxNat_range' (s n : Nat) :
    maxNat (List.range' s n) = if n = 0 then 0 else s + n - 1 := by
  induction n generalizing s with
  | zero => rfl
  | succ n ih =>
    have hcons : maxNat (List.range' s (n + 1))
        = Nat.max s (maxNat (List.range' (s + 1) n)) := by
      rw [List.range'_succ]; rfl
    rw [hcons, ih (s + 1), if_neg (Nat.succ_ne_zero n)]
    rcases Nat.eq_zero_or_pos n with h | h
    · subst h
      simp
    · rw [if_neg (by omega)]
      simp only [Nat.max_def]
      split <;> omega

theorem maxNat_range'_one (n : Nat) : maxNat (List.range' 1 n) = n := by
  rw [maxNat_range']
  split <;> omega

theorem length_sortedTxns (splitHash : String) (rows : List Txn) :
    (sortedTxns splitHash rows).length = rows.length := by
  unfold sortedTxns
  rw [List.length_insertionSort]

theorem perm_sortedTxns (splitHash : String) (rows : List Txn) :
    (sortedTxns splitHash rows).Perm rows :=
  List.perm_insertionSort _ rows

theorem rankRows_map_snd (splitHash : String) (rows : List Txn) :
    (rankRows splitHash rows).map Prod.snd = List.range' 1 rows.length := by
  unfold rankRows
  rw [List.map_snd_zip _ _ (by simp), length_sortedTxns]

theorem rankRows_map_fst (splitHash : String) (rows : List Txn) :
    (rankRows splitHash rows).map Prod.fst = sortedTxns splitHash rows := by
  unfold rankRows
  rw [List.map_fst_zip _ _ (by simp)]

theorem rankRows_rowCount (splitHash : String) (rows : List Txn) :
    rowCountOf (rankRows splitHash rows) = rows.length := by
  unfold rowCountOf
  rw [rankRows_map_snd, maxNat_range'_one]

theorem rankRows_val_length (splitHash : String) (rows : List Txn) (k : Nat) :
    ((rankRows splitHash rows).filter (fun p => decide (p.2 ≤ k))).length
      = min k rows.length := by
  unfold rankRows
  rw [length_filter_zip_le]
  rw [length_sortedTxns]
  omega

theorem rankRows_train_length (splitHash : String) (rows : List Txn) (k : Nat) :
    ((rankRows splitHash rows).filter (fun p => decide (k < p.2))).length
      = rows.length - min k rows.length := by
  unfold rankRows
  rw [length_filter_zip_gt]
  rw [length_sortedTxns]
  omega

/-- Claim C1: for fraction `f` strictly between 0 and 1 and a population of
`N` rows, the split produces a validation output of exactly `⌊N * f⌋` rows and
a training output of exactly `N - ⌊N * f⌋` rows; the two outputs are disjoint
(no ranked row lands in both filters) and together they are a permutation of
the full input population. -/
theorem split_size_law (splitHash : String) (f : ℚ) (rows : List Txn)
    (h0 : 0 < f) (h1 : f < 1) :
    ∃ train val,
      splitTxnsAndSave f (rankRows splitHash rows) = Except.ok (train, some val) ∧
      val.length = (⌊(rows.length : ℚ) * f⌋).toNat ∧
      train.length = rows.length - (⌊(rows.length : ℚ) * f⌋).toNat ∧
      (val ++ train).Perm rows ∧
      ∀ p : Txn × Nat,
        p ∈ (rankRows splitHash rows).filter
            (fun q => decide (q.2 ≤ (⌊(rows.length : ℚ) * f⌋).toNat)) →
        p ∉ (rankRows splitHash rows).filter
            (fun q => decide ((⌊(rows.length : ℚ) * f⌋).toNat < q.2)) := by
  have hhalf : (-1/2 : ℚ) < f := by linarith
  have hcount : toValidateCount f (rankRows splitHash rows)
      = (⌊(rows.length : ℚ) * f⌋).toNat := by
    unfold toValidateCount
    rw [rankRows_rowCount]
  set k : Nat := (⌊(rows.length : ℚ) * f⌋).toNat with hk
  have hkN : k ≤ rows.length := by
    have h2 : (rows.length : ℚ) * f ≤ (rows.length : ℚ) :=
      mul_le_of_le_one_right (by positivity) h1.le
    have h3 : ⌊(rows.length : ℚ) * f⌋ ≤ (rows.length : ℤ) := by
      calc ⌊(rows.length : ℚ) * f⌋ ≤ ⌊(rows.length : ℚ)⌋ := Int.floor_le_floor h2
        _ = (rows.length : ℤ) := Int.floor_natCast rows.length
    exact Int.toNat_le.mpr h3
  refine ⟨((rankRows splitHash rows).filter (fun p => decide (k < p.2))).map Prod.fst,
    ((rankRows splitHash rows).filter (fun p => decide (p.2 ≤ k))).map Prod.fst,
    ?_, ?_, ?_, ?_, ?_⟩
  · unfold splitTxnsAndSave
    rw [if_pos hhalf, if_pos ⟨h0, h1⟩, hcount]
  · rw [List.length_map, rankRows_val_length]
    omega
  · rw [List.length_map, rankRows_train_length]
    omega
  · have hcongr : (rankRows splitHash rows).filter (fun p => decide (k < p.2))
        = (rankRows splitHash rows).filter (fun p => !(decide (p.2 ≤ k))) := by
      apply List.filter_congr
      intro p _
      by_cases hp : p.2 ≤ k
      · simp [hp, Nat.not_lt.mpr hp]
      · simp [hp, Nat.lt_of_not_le hp]
    rw [hcongr, ← List.map_append]
    have hperm := List.filter_append_perm
      (fun p : Txn × Nat => decide (p.2 ≤ k)) (rankRows splitHash rows)
    have hmap := hperm.map Prod.fst
    rw [List.map_append, ← List.map_append, rankRows_map_fst] at hmap
    exact hmap.trans (perm_sortedTxns splitHash rows)
  · intro p hval htrain
    have hv := (List.mem_filter.mp hval).2
    have ht := (List.mem_filter.mp htrain).2
    simp only [decide_eq_true_eq] at hv ht
    omega

/-- One concrete, fully determined transactions row, used by witnesses. -/
def sampleTxn (id : String) : Txn :=
  ⟨some "2017-01-01 12:00:00", some id, none, none, none, none, none,
    some "05", some 10, some 100⟩

def sampleRows : List Txn :=
  [sampleTxn "a", sampleTxn "b", sampleTxn "c", sampleTxn "d"]

theorem split_size_law_witness :
    ∃ train val,
      splitTxnsAndSave (mkRat 1 2) (rankRows "42fish" sampleRows)
        = Except.ok (train, some val) ∧
      val.length = (⌊(sampleRows.length : ℚ) * mkRat 1 2⌋).toNat ∧
      train.length = sampleRows.length - (⌊(sampleRows.length : ℚ) * mkRat 1 2⌋).toNat ∧
      (val ++ train).Perm sampleRows ∧
      ∀ p : Txn × Nat,
        p ∈ (rankRows "42fish" sampleRows).filter
            (fun q => decide (q.2 ≤ (⌊(sampleRows.length : ℚ) * mkRat 1 2⌋).toNat)) →
        p ∉ (rankRows "42fish" sampleRows).filter
            (fun q => decide ((⌊(sampleRows.length : ℚ) * mkRat 1 2⌋).toNat < q.2)) :=
  split_size_law "42fish" (mkRat 1 2) sampleRows (by decide) (by decide)

/-- Claim C6: a fraction at or below the `-0.5` sentinel produces a training
output equal to the full input population (as a multiset) and no validation
output at all. -/
theorem sentinel_no_split (splitHash : String) (f : ℚ) (rows : List Txn)
    (hf : f ≤ -1/2) :
    ∃ train,
      splitTxnsAndSave f (rankRows splitHash rows) = Except.ok (train, none) ∧
      train.Perm rows := by
  refine ⟨(rankRows splitHash rows).map Prod.fst, ?_, ?_⟩
  · unfold splitTxnsAndSave
    rw [if_neg (not_lt.mpr hf)]
  · rw [rankRows_map_fst]
    exact perm_sortedTxns splitHash rows

theorem sentinel_no_split_witness :
    ∃ train,
      splitTxnsAndSave (-1) (rankRows "42fish" sampleRows) = Except.ok (train, none) ∧
      train.Perm sampleRows :=
  sentinel_no_split "42fish" (-1) sampleRows (by with_unfolding_all decide)

/-- Two rows equal in `(transactionTime, eventId)` — hence with equal hash
keys — but different in `transactionAmount`. -/
def txnDupA : Txn :=
  ⟨some "2017-01-01 12:00:00", some "dup", none, none, none, none, none,
    some "05", some 1, some 10⟩

def txnDupB : Txn :=
  ⟨some "2017-01-01 12:00:00", some "dup", none, none, none, none, none,
    some "05", some 2, some 10⟩

/-- Claim C2 counterexample: the same two-row population presented in two
different orders yields different validation membership — `txnDupA` is in the
validation output of the first run but not of the second — because the two
distinct rows share one hash key and no deterministic secondary sort key
exists. -/
theorem split_membership_reorder_cex :
    ([txnDupA, txnDupB] : List Txn).Perm [txnDupB, txnDupA] ∧
    txnDupA ≠ txnDupB ∧
    validationOutput "42fish" (mkRat 1 2) [txnDupA, txnDupB] = some [txnDupA] ∧
    validationOutput "42fish" (mkRat 1 2) [txnDupB, txnDupA] = some [txnDupB] :=
  ⟨List.Perm.swap txnDupB txnDupA [], by decide,
    by with_unfolding_all decide, by with_unfolding_all decide⟩

theorem sorted_key_sortedTxns (splitHash : String) (rows : List Txn) :
    List.Sorted (fun a b => splitKey splitHash a ≤ splitKey splitHash b)
      (sortedTxns splitHash rows) := by
  haveI : IsTotal Txn (fun a b => splitKey splitHash a ≤ splitKey splitHash b) :=
    ⟨fun a b => Nat.le_total _ _⟩
  haveI : IsTrans Txn (fun a b => splitKey splitHash a ≤ splitKey splitHash b) :=
    ⟨fun a b c hab hbc => Nat.le_trans hab hbc⟩
  exact List.sorted_insertionSort _ rows

theorem sorted_key_lt_of_nodup (key : Txn → Nat) (l : List Txn)
    (hs : List.Sorted (fun a b => key a ≤ key b) l)
    (hnd : (l.map key).Nodup) :
    List.Sorted (fun a b => key a < key b) l := by
  have hne : List.Pairwise (fun a b : Txn => key a ≠ key b) l :=
    List.pairwise_map.mp hnd
  have hand := List.Pairwise.and hs hne
  exact hand.imp (fun h => Nat.lt_of_le_of_ne h.1 h.2)

theorem eq_of_perm_sorted_key_nodup (key : Txn → Nat) (l1 l2 : List Txn)
    (hperm : l1.Perm l2)
    (h1 : List.Sorted (fun a b => key a ≤ key b) l1)
    (h2 : List.Sorted (fun a b => key a ≤ key b) l2)
    (hnd : (l1.map key).Nodup) : l1 = l2 := by
  haveI : IsAntisymm Txn (fun a b => key a < key b) :=
    ⟨fun a b hab hba => absurd hba (Nat.lt_asymm hab)⟩
  have hnd2 : (l2.map key).Nodup := ((hperm.map key).nodup_iff).mp hnd
  exact List.eq_of_perm_of_sorted hperm
    (sorted_key_lt_of_nodup key l1 h1 hnd)
    (sorted_key_lt_of_nodup key l2 h2 hnd2)

/-- Claim C2 (amended): the partitioner is a pure function of the presented
row list, and when the hash keys of the population's rows are pairwise
distinct, presenting the same population in any other order yields the very
same ranked table and the very same split outputs (hence identical
train/validation membership for every row). -/
theorem split_order_independent (splitHash : String) (f : ℚ)
    (rows rows2 : List Txn) (hperm : rows2.Perm rows)
    (hkeys : (rows.map (splitKey splitHash)).Nodup) :
    rankRows splitHash rows2 = rankRows splitHash rows ∧
    splitTxnsAndSave f (rankRows splitHash rows2)
      = splitTxnsAndSave f (rankRows splitHash rows) := by
  have hkeys1 : ((sortedTxns splitHash rows).map (splitKey splitHash)).Nodup :=
    (((perm_sortedTxns splitHash rows).map (splitKey splitHash)).nodup_iff).mpr hkeys
  have hp : (sortedTxns splitHash rows2).Perm (sortedTxns splitHash rows) :=
    ((perm_sortedTxns splitHash rows2).trans hperm).trans
      (perm_sortedTxns splitHash rows).symm
  have hkeys2 : ((sortedTxns splitHash rows2).map (splitKey splitHash)).Nodup :=
    ((hp.map (splitKey splitHash)).nodup_iff).mpr hkeys1
  have heq : sortedTxns splitHash rows2 = sortedTxns splitHash rows :=
    eq_of_perm_sorted_key_nodup (splitKey splitHash) _ _ hp
      (sorted_key_sortedTxns splitHash rows2) (sorted_key_sortedTxns splitHash rows)
      hkeys2
  have h1 : rankRows splitHash rows2 = rankRows splitHash rows := by
    unfold rankRows
    rw [heq]
  exact ⟨h1, by rw [h1]⟩

def sampleRowsPerm : List Txn :=
  [sampleTxn "c", sampleTxn "a", sampleTxn "d", sampleTxn "b"]

theorem split_order_independent_witness :
    rankRows "42fish" sampleRowsPerm = rankRows "42fish" sampleRows ∧
    splitTxnsAndSave (mkRat 1 2) (rankRows "42fish" sampleRowsPerm)
      = splitTxnsAndSave (mkRat 1 2) (rankRows "42fish" sampleRows) :=
  split_order_independent "42fish" (mkRat 1 2) sampleRows sampleRowsPerm
    (by decide) (by decide)

/-- A raw row with a well-formed timestamp but no identifier at all. -/
def missingIdRaw : RawTxnRow :=
  ⟨some "2017-01-01 12:00:00", none, none, none, none, none, none,
    some "05", some 3, some 7⟩

/-- A raw row with a malformed timestamp. -/
def malformedTsRaw : RawTxnRow :=
  ⟨some "not-a-timestamp", some "e9", none, none, none, none, none,
    some "05", some 3, some 7⟩

/-- Claim C9 counterexample: a row whose identifier is missing is not a fatal
ingestion error — the load succeeds and assigns the row partition rank 1. -/
theorem missing_id_ranked_cex :
    missingIdRaw.eventId = none ∧
    loadSourceTxns "42fish" [missingIdRaw]
      = Except.ok [(rawToTxn missingIdRaw, 1)] :=
  ⟨rfl, rfl⟩

theorem parseRawRows_error (rows : List RawTxnRow)
    (h : ∃ r ∈ rows, ∃ s, r.transactionTime = some s ∧ isValidTimestamp s = false) :
    ∃ e, parseRawRows rows = Except.error e := by
  induction rows with
  | nil =>
    rcases h with ⟨r, hr, _⟩
    cases hr
  | cons a t ih =>
    rcases h with ⟨r, hr, s, hts, hbad⟩
    rcases List.mem_cons.mp hr with rfl | hrt
    · have hra : parseRawRow r
          = Except.error "Conversion Error: Could not convert string to TIMESTAMP" := by
        unfold parseRawRow
        rw [hts]
        simp [hbad]
      unfold parseRawRows
      rw [hra]
      exact ⟨_, rfl⟩
    · unfold parseRawRows
      cases hpa : parseRawRow a with
      | error e => exact ⟨e, rfl⟩
      | ok t1 =>
        rcases ih ⟨r, hrt, s, hts, hbad⟩ with ⟨e, he⟩
        rw [he]
        exact ⟨e, rfl⟩

theorem parseRawRows_ok (rows : List RawTxnRow)
    (h : ∀ r ∈ rows, ∀ s, r.transactionTime = some s → isValidTimestamp s = true) :
    parseRawRows rows = Except.ok (rows.map rawToTxn) := by
  induction rows with
  | nil => rfl
  | cons a t ih =>
    have ha : parseRawRow a = Except.ok (rawToTxn a) := by
      unfold parseRawRow rawToTxn
      cases hts : a.transactionTime with
      | none => rfl
      | some s =>
        dsimp only
        rw [if_pos (h a (List.mem_cons_self a t) s hts)]
    unfold parseRawRows
    rw [ha, ih (fun r hr s hs => h r (List.mem_cons_of_mem a hr) s hs)]
    rfl

/-- Claim C9 (amended): any present but malformed timestamp is a fatal
ingestion error; but a missing identifier is not — when every present
timestamp is well-formed, the load succeeds and every row (rows with missing
identifiers included) is assigned a partition rank. -/
theorem ingest_failure_semantics (splitHash : String) (rows : List RawTxnRow) :
    ((∃ r ∈ rows, ∃ s, r.transactionTime = some s ∧ isValidTimestamp s = false) →
      ∃ e, loadSourceTxns splitHash rows = Except.error e) ∧
    ((∀ r ∈ rows, ∀ s, r.transactionTime = some s → isValidTimestamp s = true) →
      loadSourceTxns splitHash rows
        = Except.ok (rankRows splitHash (rows.map rawToTxn))) := by
  constructor
  · intro h
    rcases parseRawRows_error rows h with ⟨e, he⟩
    refine ⟨e, ?_⟩
    unfold loadSourceTxns
    rw [he]
  · intro h
    unfold loadSourceTxns
    rw [parseRawRows_ok rows h]

theorem ingest_failure_semantics_witness :
    (∃ e, loadSourceTxns "42fish" [malformedTsRaw] = Except.error e) ∧
    loadSourceTxns "42fish" [missingIdRaw]
      = Except.ok (rankRows "42fish" ([missingIdRaw].map rawToTxn)) :=
  ⟨(ingest_failure_semantics "42fish" [malformedTsRaw]).1
      ⟨malformedTsRaw, List.mem_singleton_self malformedTsRaw,
        "not-a-timestamp", rfl, rfl⟩,
    (ingest_failure_semantics "42fish" [missingIdRaw]).2 (by
      intro r hr s hs
      rcases List.mem_singleton.mp hr with rfl
      have hv : some "2017-01-01 12:00:00" = some s := hs
      injection hv with hv2
      subst hv2
      rfl)⟩

/-! ## Frequency encoding (`generate_categorical_encoding_dict.py`) -/

/-- `IFNULL(feature, 'NULL')`: a missing raw value becomes the dedicated
category label "NULL" before counting. -/
def ifnullCat (v : Option String) : String := v.getD "NULL"

/-- The `GROUP BY feature` with `COUNT(*)`: each distinct observed value
paired with its number of occurrences. -/
def catCounts (vals : List String) : List (String × Nat) :=
  vals.dedup.map (fun c => (c, vals.count c))

/-- `.sort_values('row_count', ascending=False)`: categories by descending
count; the order among equal counts is implementation-defined. -/
def sortedCatCounts (vals : List String) : List (String × Nat) :=
  (catCounts vals).insertionSort (fun a b => b.2 ≤ a.2)

/-- `np.cumsum` with an explicit running accumulator. -/
def cumsumFrom (acc : Nat) : List Nat → List Nat
  | [] => []
  | x :: t => (acc + x) :: cumsumFrom (acc + x) t

/-- `cat_counts_df.row_count.values` after sorting: the descending counts. -/
def countsOf (vals : List String) : List Nat :=
  (sortedCatCounts vals).map Prod.snd

/-- `feature_cumul_counts_arr = np.cumsum(cat_counts_df.row_count.values)`. -/
def cumulCounts (vals : List String) : List Nat :=
  cumsumFrom 0 (countsOf vals)

/-- `np.max(feature_cumul_counts_arr)`, the divisor of the encoding. -/
def grandTotal (vals : List String) : Nat := maxNat (cumulCounts vals)

/-- `frequency_encode_feature`: the fitted mapping, as the association list
pairing each category (in descending count order) with its normalized
cumulative count. -/
def frequencyEncodeFeature (vals : List (Option String)) : List (String × ℚ) :=
  ((sortedCatCounts (vals.map ifnullCat)).map Prod.fst).zip
    ((cumulCounts (vals.map ifnullCat)).map
      (fun c : Nat => (c : ℚ) / (grandTotal (vals.map ifnullCat) : ℚ)))

/-! ### Cumulative-sum lemmas -/

theorem length_cumsumFrom (acc : Nat) (l : List Nat) :
    (cumsumFrom acc l).length = l.length := by
  induction l generalizing acc with
  | nil => rfl
  | cons x t ih => simp [cumsumFrom, ih]

theorem le_of_mem_cumsumFrom (acc : Nat) (l : List Nat) :
    ∀ y ∈ cumsumFrom acc l, acc ≤ y := by
  induction l generalizing acc with
  | nil => intro y hy; cases hy
  | cons x t ih =>
    intro y hy
    rcases List.mem_cons.mp hy with rfl | hyt
    · omega
    · have := ih (acc + x) y hyt
      omega

theorem lt_of_mem_cumsumFrom (acc : Nat) (l : List Nat)
    (hpos : ∀ x ∈ l, 0 < x) :
    ∀ y ∈ cumsumFrom acc l, acc < y := by
  induction l generalizing acc with
  | nil => intro y hy; cases hy
  | cons x t ih =>
    intro y hy
    have hx : 0 < x := hpos x (List.mem_cons_self x t)
    rcases List.mem_cons.mp hy with rfl | hyt
    · omega
    · have := ih (acc + x) (fun z hz => hpos z (List.mem_cons_of_mem x hz)) y hyt
      omega

theorem mem_cumsumFrom_le_sum (acc : Nat) (l : List Nat) :
    ∀ y ∈ cumsumFrom acc l, y ≤ acc + l.sum := by
  induction l generalizing acc with
  | nil => intro y hy; cases hy
  | cons x t ih =>
    intro y hy
    rcases List.mem_cons.mp hy with rfl | hyt
    · simp only [List.sum_cons]
      omega
    · have := ih (acc + x) y hyt
      simp only [List.sum_cons] at *
      omega

theorem sorted_le_cumsumFrom (acc : Nat) (l : List Nat) :
    List.Sorted (· ≤ ·) (cumsumFrom acc l) := by
  induction l generalizing acc with
  | nil => exact List.sorted_nil
  | cons x t ih =>
    refine List.sorted_cons.mpr ⟨?_, ih (acc + x)⟩
    intro y hy
    exact le_of_mem_cumsumFrom (acc + x) t y hy

theorem sorted_lt_cumsumFrom (acc : Nat) (l : List Nat)
    (hpos : ∀ x ∈ l, 0 < x) :
    List.Sorted (· < ·) (cumsumFrom acc l) := by
  induction l generalizing acc with
  | nil => exact List.sorted_nil
  | cons x t ih =>
    refine List.sorted_cons.mpr
      ⟨?_, ih (acc + x) (fun z hz => hpos z (List.mem_cons_of_mem x hz))⟩
    intro y hy
    exact lt_of_mem_cumsumFrom (acc + x) t
      (fun z hz => hpos z (List.mem_cons_of_mem x hz)) y hy

theorem getLast?_cumsumFrom (acc : Nat) (l : List Nat) (hne : l ≠ []) :
    (cumsumFrom acc l).getLast? = some (acc + l.sum) := by
  induction l generalizing acc with
  | nil => exact absurd rfl hne
  | cons x t ih =>
    cases t with
    | nil => simp [cumsumFrom]
    | cons y t2 =>
      have htail := ih (acc + x) (by simp)
      have hstep : cumsumFrom acc (x :: y :: t2)
          = (acc + x) :: cumsumFrom (acc + x) (y :: t2) := rfl
      have hstep2 : cumsumFrom (acc + x) (y :: t2)
          = (acc + x + y) :: cumsumFrom (acc + x + y) t2 := rfl
      rw [hstep, hstep2, List.getLast?_cons_cons, ← hstep2, htail]
      simp only [List.sum_cons, Option.some.injEq]
      omega

theorem maxNat_cumsumFrom (acc : Nat) (l : List Nat) (hne : l ≠ []) :
    maxNat (cumsumFrom acc l) = acc + l.sum := by
  induction l generalizing acc with
  | nil => exact absurd rfl hne
  | cons x t ih =>
    cases t with
    | nil =>
      show Nat.max (acc + x) 0 = acc + [x].sum
      simp
    | cons y t2 =>
      have htail := ih (acc + x) (by simp)
      have hcons : maxNat (cumsumFrom acc (x :: y :: t2))
          = Nat.max (acc + x) (maxNat (cumsumFrom (acc + x) (y :: t2))) := rfl
      rw [hcons, htail]
      simp only [List.sum_cons, Nat.max_def]
      split <;> omega

/-! ### Count lemmas and the C3 / C10 theorems -/

theorem map_ne_nil {α β : Type} (f : α → β) (l : List α) (h : l ≠ []) :
    l.map f ≠ [] := by
  cases l with
  | nil => exact absurd rfl h
  | cons a t => simp

theorem ne_nil_of_map_ne_nil {α β : Type} (f : α → β) (l : List α)
    (h : l.map f ≠ []) : l ≠ [] := by
  cases l with
  | nil => exact absurd rfl h
  | cons a t => simp

theorem catCounts_pos (vals : List String) :
    ∀ p ∈ catCounts vals, 0 < p.2 := by
  intro p hp
  rcases List.mem_map.mp hp with ⟨c, hc, rfl⟩
  exact List.count_pos_iff.mpr (List.mem_dedup.mp hc)

theorem sortedCatCounts_perm (vals : List String) :
    (sortedCatCounts vals).Perm (catCounts vals) :=
  List.perm_insertionSort _ _

theorem sortedCatCounts_pos (vals : List String) :
    ∀ p ∈ sortedCatCounts vals, 0 < p.2 := by
  intro p hp
  exact catCounts_pos vals p ((sortedCatCounts_perm vals).mem_iff.mp hp)

theorem catCounts_ne_nil (vals : List String) (hne : vals ≠ []) :
    catCounts vals ≠ [] := by
  rcases vals with _ | ⟨a, t⟩
  · exact absurd rfl hne
  · exact map_ne_nil _ _
      (List.ne_nil_of_mem (List.mem_dedup.mpr (List.mem_cons_self a t)))

theorem sortedCatCounts_ne_nil (vals : List String) (hne : vals ≠ []) :
    sortedCatCounts vals ≠ [] := by
  intro h
  have hl := (sortedCatCounts_perm vals).length_eq
  rw [h] at hl
  have : catCounts vals = [] := by
    cases hcc : catCounts vals with
    | nil => rfl
    | cons b u =>
      rw [hcc] at hl
      simp at hl
  exact catCounts_ne_nil vals hne this

theorem countsOf_ne_nil (vals : List String) (hne : vals ≠ []) :
    countsOf vals ≠ [] :=
  map_ne_nil _ _ (sortedCatCounts_ne_nil vals hne)

theorem countsOf_pos (vals : List String) :
    ∀ x ∈ countsOf vals, 0 < x := by
  intro x hx
  rcases List.mem_map.mp hx with ⟨p, hp, rfl⟩
  exact sortedCatCounts_pos vals p hp

theorem sum_pos_of_mem_pos (l : List Nat) (hne : l ≠ [])
    (hpos : ∀ x ∈ l, 0 < x) : 0 < l.sum := by
  rcases l with _ | ⟨x, t⟩
  · exact absurd rfl hne
  · have := hpos x (List.mem_cons_self x t)
    simp only [List.sum_cons]
    omega

theorem grandTotal_eq_sum (vals : List String) (hne : vals ≠ []) :
    grandTotal vals = (countsOf vals).sum := by
  unfold grandTotal cumulCounts
  rw [maxNat_cumsumFrom 0 (countsOf vals) (countsOf_ne_nil vals hne)]
  omega

theorem grandTotal_pos (vals : List String) (hne : vals ≠ []) :
    0 < grandTotal vals := by
  rw [grandTotal_eq_sum vals hne]
  exact sum_pos_of_mem_pos _ (countsOf_ne_nil vals hne) (countsOf_pos vals)

theorem frequencyEncodeFeature_map_snd (vals : List (Option String)) :
    (frequencyEncodeFeature vals).map Prod.snd
      = (cumulCounts (vals.map ifnullCat)).map
          (fun c : Nat => (c : ℚ) / (grandTotal (vals.map ifnullCat) : ℚ)) := by
  unfold frequencyEncodeFeature
  rw [List.map_snd_zip]
  simp [cumulCounts, countsOf, length_cumsumFrom]

/-- Claim C3: for every non-empty sequence of raw category values, the fitted
frequency encoding, read in its descending-count order, has non-decreasing
encoded values, its final encoded value is exactly 1, and every encoded value
lies in the half-open interval `(0, 1]`. -/
theorem frequency_encoding_monotone (vals : List (Option String)) (hne : vals ≠ []) :
    List.Sorted (· ≤ ·) ((frequencyEncodeFeature vals).map Prod.snd) ∧
    ((frequencyEncodeFeature vals).map Prod.snd).getLast? = some 1 ∧
    ∀ q ∈ (frequencyEncodeFeature vals).map Prod.snd, 0 < q ∧ q ≤ 1 := by
  have hcv : vals.map ifnullCat ≠ [] := map_ne_nil _ _ hne
  have hcne : countsOf (vals.map ifnullCat) ≠ [] := countsOf_ne_nil _ hcv
  have hcpos := countsOf_pos (vals.map ifnullCat)
  have hgt := grandTotal_eq_sum (vals.map ifnullCat) hcv
  have hpos := grandTotal_pos (vals.map ifnullCat) hcv
  have hSQ : (0 : ℚ) < (grandTotal (vals.map ifnullCat) : ℚ) := by
    exact_mod_cast hpos
  refine ⟨?_, ?_, ?_⟩
  · rw [frequencyEncodeFeature_map_snd]
    exact List.Pairwise.map _
      (fun a b hab => (div_le_div_iff_of_pos_right hSQ).mpr (Nat.cast_le.mpr hab))
      (sorted_le_cumsumFrom 0 (countsOf (vals.map ifnullCat)))
  · rw [frequencyEncodeFeature_map_snd, List.getLast?_map]
    unfold cumulCounts
    rw [getLast?_cumsumFrom 0 _ hcne]
    have hzero : 0 + (countsOf (vals.map ifnullCat)).sum
        = grandTotal (vals.map ifnullCat) := by omega
    rw [Option.map_some', hzero, div_self (ne_of_gt hSQ)]
  · intro q hq
    rw [frequencyEncodeFeature_map_snd] at hq
    rcases List.mem_map.mp hq with ⟨c, hc, rfl⟩
    unfold cumulCounts at hc
    have hc0 : 0 < c := lt_of_mem_cumsumFrom 0 _ hcpos c hc
    have hcS : c ≤ grandTotal (vals.map ifnullCat) := by
      have := mem_cumsumFrom_le_sum 0 _ c hc
      omega
    constructor
    · exact div_pos (by exact_mod_cast hc0) hSQ
    · exact (div_le_one hSQ).mpr (by exact_mod_cast hcS)

/-- The docstring's worked example `['a','b','a','c','b','a']`, used by the
witnesses for the encoding claims. -/
def exampleVals : List (Option String) :=
  [some "a", some "b", some "a", some "c", some "b", some "a"]

theorem frequency_encoding_monotone_witness :
    List.Sorted (· ≤ ·) ((frequencyEncodeFeature exampleVals).map Prod.snd) ∧
    ((frequencyEncodeFeature exampleVals).map Prod.snd).getLast? = some 1 ∧
    ∀ q ∈ (frequencyEncodeFeature exampleVals).map Prod.snd, 0 < q ∧ q ≤ 1 :=
  frequency_encoding_monotone exampleVals (by decide)

theorem snd_unique_of_pairwise_ne {l : List (String × ℚ)}
    (h : List.Pairwise (fun a b : String × ℚ => a.2 ≠ b.2) l) :
    ∀ p ∈ l, ∀ q ∈ l, p.2 = q.2 → p = q := by
  induction l with
  | nil => intro p hp; cases hp
  | cons a t ih =>
    intro p hp q hq heq
    rcases List.pairwise_cons.mp h with ⟨ha, ht⟩
    rcases List.mem_cons.mp hp with rfl | hpt
    · rcases List.mem_cons.mp hq with rfl | hqt
      · rfl
      · exact absurd heq (ha q hqt)
    · rcases List.mem_cons.mp hq with rfl | hqt
      · exact absurd heq.symm (ha p hpt)
      · exact ih ht p hpt q hqt heq

/-- Claim C10: the fitted frequency-encoding mapping is injective — distinct
category values always receive distinct encoded values, because every
category's count is at least 1 so the cumulative sums are strictly
increasing. -/
theorem frequency_encoding_injective (vals : List (Option String)) (hne : vals ≠ []) :
    ∀ p ∈ frequencyEncodeFeature vals, ∀ q ∈ frequencyEncodeFeature vals,
      p.1 ≠ q.1 → p.2 ≠ q.2 := by
  have hcv : vals.map ifnullCat ≠ [] := map_ne_nil _ _ hne
  have hpos := grandTotal_pos (vals.map ifnullCat) hcv
  have hSQ : (0 : ℚ) < (grandTotal (vals.map ifnullCat) : ℚ) := by
    exact_mod_cast hpos
  have hstrict : List.Pairwise (· < ·) ((frequencyEncodeFeature vals).map Prod.snd) := by
    rw [frequencyEncodeFeature_map_snd]
    exact List.Pairwise.map _
      (fun a b hab => (div_lt_div_iff_of_pos_right hSQ).mpr (Nat.cast_lt.mpr hab))
      (sorted_lt_cumsumFrom 0 (countsOf (vals.map ifnullCat))
        (countsOf_pos (vals.map ifnullCat)))
  have hpne : List.Pairwise (fun a b : String × ℚ => a.2 ≠ b.2)
      (frequencyEncodeFeature vals) :=
    List.pairwise_map.mp (hstrict.imp ne_of_lt)
  intro p hp q hq hne1 heq
  exact hne1 (congrArg Prod.fst (snd_unique_of_pairwise_ne hpne p hp q hq heq))

theorem frequency_encoding_injective_witness :
    ∃ p q : String × ℚ,
      p ∈ frequencyEncodeFeature exampleVals ∧
      q ∈ frequencyEncodeFeature exampleVals ∧
      p.1 ≠ q.1 ∧ p.2 ≠ q.2 :=
  ⟨("b", mkRat 5 6), ("c", 1),
    by with_unfolding_all decide,
    by with_unfolding_all decide,
    by decide,
    frequency_encoding_injective exampleVals (by decide) ("b", mkRat 5 6)
      (by with_unfolding_all decide) ("c", 1)
      (by with_unfolding_all decide) (by decide)⟩

/-! ## Dataset assembly (`generate_model_dataset.py`) -/

/-- A labels row (`reportedTime TIMESTAMP, eventId VARCHAR`), both nullable. -/
structure LabelRow where
  reportedTime : Option String
  eventId : Option String
deriving Repr, DecidableEq

/-- SQL equality `L.eventId = T.eventId` on nullable identifiers: `NULL`
matches nothing, not even another `NULL`. -/
def sqlIdEq (a b : Option String) : Bool :=
  match a, b with
  | some x, some y => x == y
  | _, _ => false

def char2nat (c : Char) : Nat := c.toNat - 48

/-- Two decimal digits of a timestamp text starting at position `i`. -/
def twoDigits (s : List Char) (i : Nat) : Nat :=
  10 * char2nat (s.getD i '0') + char2nat (s.getD (i + 1) '0')

/-- Four decimal digits of a timestamp text starting at position `i`. -/
def fourDigits (s : List Char) (i : Nat) : Nat :=
  100 * twoDigits s i + twoDigits s (i + 2)

/-- `MONTH(transactionTime)` on the canonical `YYYY-MM-DD HH:MM:SS` text. -/
def tsMonth (s : String) : Nat := twoDigits s.data 5

/-- `DAYOFMONTH(transactionTime)`. -/
def tsDayOfMonth (s : String) : Nat := twoDigits s.data 8

/-- `HOUR(transactionTime)`. -/
def tsHour (s : String) : Nat := twoDigits s.data 11

def tsYear (s : String) : Nat := fourDigits s.data 0

def zellerAdjY (y m : Nat) : Nat := if m ≤ 2 then y - 1 else y

def zellerAdjM (m : Nat) : Nat := if m ≤ 2 then m + 12 else m

/-- `DAYOFWEEK(transactionTime)` (0 = Sunday .. 6 = Saturday), modelled by
Zeller's congruence on the proleptic Gregorian calendar. -/
def zellerDow (y m d : Nat) : Nat :=
  (d + 13 * (zellerAdjM m + 1) / 5 + zellerAdjY y m % 100
    + zellerAdjY y m % 100 / 4 + zellerAdjY y m / 100 / 4
    + 5 * (zellerAdjY y m / 100) + 6) % 7

def tsDow (s : String) : Nat := zellerDow (tsYear s) (tsMonth s) (tsDayOfMonth s)

/-- One row of the joined dataframe before categorical encoding: identifier,
calendar features, raw categorical field, passthrough numeric fields, flag. -/
structure PrelimRow where
  eventId : Option String
  txn_month : Option Nat
  txn_day_of_month : Option Nat
  txn_day_of_week : Option Nat
  txn_hour : Option Nat
  posEntryMode : Option String
  transactionAmount : Option ℚ
  availableCash : Option ℚ
  is_fraud_flag : Int
deriving Repr, DecidableEq

/-- One row of the final model dataset: the fixed output schema, with
`posEntryMode` now numeric. -/
structure DatasetRow where
  eventId : Option String
  txn_month : Option Nat
  txn_day_of_month : Option Nat
  txn_day_of_week : Option Nat
  txn_hour : Option Nat
  transactionAmount : Option ℚ
  availableCash : Option ℚ
  is_fraud_flag : Int
  posEntryMode : ℚ
deriving Repr, DecidableEq

/-- `LEFT JOIN labels AS L ON L.eventId = T.eventId`: all matching label rows,
or one `NULL` label when none match. -/
def joinLabels (labels : List LabelRow) (t : Txn) : List (Option LabelRow) :=
  match labels.filter (fun L => sqlIdEq L.eventId t.eventId) with
  | [] => [none]
  | ms => ms.map some

/-- The joined row's `reportedTime` (`NULL` when the join found no label). -/
def joinedReportedTime (optL : Option LabelRow) : Option String :=
  match optL with
  | none => none
  | some L => L.reportedTime

/-- `is_fraud_flag`: `1` when the joined `reportedTime` is non-`NULL`, else
`0` when a labels table was supplied and `-1` when it was not. -/
def fraudFlag (labelsProvided : Bool) (rt : Option String) : Int :=
  match rt with
  | none => if labelsProvided then 0 else -1
  | some _ => 1

/-- Build one `core_vw` row from a transaction and its joined label. -/
def mkPrelimRow (labelsProvided : Bool) (t : Txn) (optL : Option LabelRow) :
    PrelimRow :=
  ⟨t.eventId, t.transactionTime.map tsMonth, t.transactionTime.map tsDayOfMonth,
    t.transactionTime.map tsDow, t.transactionTime.map tsHour,
    t.posEntryMode, t.transactionAmount, t.availableCash,
    fraudFlag labelsProvided (joinedReportedTime optL)⟩

/-- The dataframe before categorical encoding: one output row per
(transaction, matching label) pair of the left join.  A missing labels source
is modelled exactly as in the code — an empty labels table is created and
`labels_provided` is false. -/
def prelimDataset (txns : List Txn) (labelsOpt : Option (List LabelRow)) :
    List PrelimRow :=
  txns.flatMap (fun t =>
    (joinLabels (labelsOpt.getD []) t).map (mkPrelimRow labelsOpt.isSome t))

/-- `cat_enc_dict[cat_feat].get(value)`: a `NULL` raw value or a value absent
from the mapping is not found. -/
def lookupEnc (m : List (String × ℚ)) (v : Option String) : Option ℚ :=
  match v with
  | none => none
  | some s => m.lookup s

/-- The `np.all(np.isfinite(...))` check over the mapped column: succeeds with
the mapped values only when every lookup succeeded. -/
def seqOptQ : List (Option ℚ) → Option (List ℚ)
  | [] => some []
  | none :: _ => none
  | some x :: t => (seqOptQ t).map (fun l => x :: l)

/-- `dataset_df.assign(posEntryMode=mapped_field_vals)` for one row. -/
def finalizeRow (p : PrelimRow) (enc : ℚ) : DatasetRow :=
  ⟨p.eventId, p.txn_month, p.txn_day_of_month, p.txn_day_of_week, p.txn_hour,
    p.transactionAmount, p.availableCash, p.is_fraud_flag, enc⟩

def missingEncodingMsg : String :=
  "Categorical encoding for `posEntryMode` is missing"

/-- `np.vectorize` raises this `ValueError` whenever it is applied to a size-0
input without explicit output types — the error an empty population hits. -/
def vectorizeEmptyMsg : String :=
  "cannot call `vectorize` on size 0 inputs unless `otypes` is set"

def unseenCategoryMsg : String :=
  "Some values have not been found in the dictionary!"

/-- `np.vectorize` infers its output type from the mapped value of the FIRST
element; when the first row's value is unseen, `dict.get` returns `None`
there, the output array has object type, and `np.isfinite` on an object array
raises this `TypeError` before the script's own check is reached. -/
def isfiniteTypeErrorMsg : String :=
  "TypeError: ufunc isfinite not supported for the input types"

/-- `generate_model_dataset.main`: build the joined dataframe, then encode the
single string-typed non-id column of the fixed schema, `posEntryMode`.  The
mapping for it must exist (else the run aborts naming the field) and the
column must be non-empty (`np.vectorize` refuses size-0 input).  The mapping
of the column then has two failure modes: if the FIRST row's value is unseen,
`np.vectorize` infers object output types and `np.isfinite` raises a
`TypeError`; if the first value is found, later unseen values become `NaN`
and the script's `np.all(np.isfinite(...))` guard raises its fixed unseen-
value message.  Only when every value is found is an output produced. -/
def assembleDataset (txns : List Txn) (labelsOpt : Option (List LabelRow))
    (encDictOpt : Option (List (String × List (String × ℚ)))) :
    Except String (List DatasetRow) :=
  match encDictOpt with
  | none => Except.error missingEncodingMsg
  | some encDict =>
    match encDict.lookup "posEntryMode" with
    | none => Except.error missingEncodingMsg
    | some encMap =>
      if prelimDataset txns labelsOpt = [] then
        Except.error vectorizeEmptyMsg
      else
        if ((prelimDataset txns labelsOpt).map
            (fun p => lookupEnc encMap p.posEntryMode)).head? = some none then
          Except.error isfiniteTypeErrorMsg
        else
          match seqOptQ ((prelimDataset txns labelsOpt).map
              (fun p => lookupEnc encMap p.posEntryMode)) with
          | none => Except.error unseenCategoryMsg
          | some ms =>
            Except.ok (List.zipWith finalizeRow (prelimDataset txns labelsOpt) ms)

/-- A concrete fitted encoding dictionary covering `posEntryMode`. -/
def stdEncDict : List (String × List (String × ℚ)) :=
  [("posEntryMode", [("05", mkRat 1 2), ("81", 1)])]

/-- Claim C8 (code bug): an empty transactions population does not produce an
empty schema-valid output dataset — the assembler aborts with `np.vectorize`'s
size-0 error before anything is written. -/
theorem empty_population_aborts :
    assembleDataset [] none (some stdEncDict) = Except.error vectorizeEmptyMsg := rfl

/-- Substring check, used to state what an error message does (not) name. -/
def containsSub (needle hay : String) : Bool :=
  hay.data.tails.any (fun t => needle.data.isPrefixOf t)

/-- A transaction whose `posEntryMode` value "99" is absent from
`stdEncDict`'s mapping. -/
def txnUnseen : Txn :=
  ⟨some "2017-03-05 10:20:30", some "e1", none, none, none, none, none,
    some "99", some 5, some 50⟩

/-- Claim C4 counterexample: an unseen `posEntryMode` value does abort the run
and no output is written, but the error is a fixed message that names neither
the field `posEntryMode` nor the missing value "99" — here the first (and
only) row's value is unseen, so the abort is `np.isfinite`'s `TypeError` on
the object-typed mapped column, not even the script's own message. -/
theorem unseen_category_cex :
    assembleDataset [txnUnseen] none (some stdEncDict)
      = Except.error isfiniteTypeErrorMsg ∧
    containsSub "posEntryMode" isfiniteTypeErrorMsg = false ∧
    containsSub "99" isfiniteTypeErrorMsg = false :=
  ⟨rfl, by decide, by decide⟩

theorem seqOptQ_eq_none {α : Type} (f : α → Option ℚ) (l : List α)
    (h : ∃ p ∈ l, f p = none) : seqOptQ (l.map f) = none := by
  induction l with
  | nil =>
    rcases h with ⟨p, hp, _⟩
    cases hp
  | cons a t ih =>
    rcases h with ⟨p, hp, hfp⟩
    rcases List.mem_cons.mp hp with rfl | hpt
    · rw [List.map_cons, hfp]
      rfl
    · rw [List.map_cons]
      cases hfa : f a with
      | none => rfl
      | some x =>
        have ht := ih ⟨p, hpt, hfp⟩
        simp [seqOptQ, ht]

/-- Claim C4 (amended): when the `posEntryMode` mapping exists but some row's
raw value is absent from it, the run aborts and no output dataset is
produced, but the error is one of two fixed messages — `np.isfinite`'s
`TypeError` when the first row's value is itself unseen, the script's own
unseen-value message otherwise — and neither message names the field or the
missing value (both are constants; in particular neither mentions
`posEntryMode`). -/
theorem unseen_category_aborts (txns : List Txn) (labelsOpt : Option (List LabelRow))
    (encDict : List (String × List (String × ℚ))) (encMap : List (String × ℚ))
    (hd : encDict.lookup "posEntryMode" = some encMap)
    (hmiss : ∃ p ∈ prelimDataset txns labelsOpt,
      lookupEnc encMap p.posEntryMode = none) :
    (assembleDataset txns labelsOpt (some encDict)
        = Except.error isfiniteTypeErrorMsg ∨
      assembleDataset txns labelsOpt (some encDict)
        = Except.error unseenCategoryMsg) ∧
    containsSub "posEntryMode" isfiniteTypeErrorMsg = false ∧
    containsSub "posEntryMode" unseenCategoryMsg = false := by
  have hne : ¬ (prelimDataset txns labelsOpt = []) := by
    rcases hmiss with ⟨p, hp, _⟩
    intro h
    rw [h] at hp
    cases hp
  refine ⟨?_, by decide, by decide⟩
  by_cases hh : ((prelimDataset txns labelsOpt).map
      (fun p => lookupEnc encMap p.posEntryMode)).head? = some none
  · left
    unfold assembleDataset
    dsimp only
    rw [hd]
    dsimp only
    rw [if_neg hne, if_pos hh]
  · right
    have hseq := seqOptQ_eq_none (fun p => lookupEnc encMap p.posEntryMode)
      (prelimDataset txns labelsOpt) hmiss
    unfold assembleDataset
    dsimp only
    rw [hd]
    dsimp only
    rw [if_neg hne, if_neg hh, hseq]

/-- A transaction with `posEntryMode` "05" and identifier "e1". -/
def txnLbl : Txn :=
  ⟨some "2017-03-05 10:20:30", some "e1", none, none, none, none, none,
    some "05", some 5, some 50⟩

theorem unseen_category_aborts_witness :
    (assembleDataset [txnLbl, txnUnseen] (some []) (some stdEncDict)
        = Except.error isfiniteTypeErrorMsg ∨
      assembleDataset [txnLbl, txnUnseen] (some []) (some stdEncDict)
        = Except.error unseenCategoryMsg) ∧
    containsSub "posEntryMode" isfiniteTypeErrorMsg = false ∧
    containsSub "posEntryMode" unseenCategoryMsg = false :=
  unseen_category_aborts [txnLbl, txnUnseen] (some []) stdEncDict
    [("05", mkRat 1 2), ("81", 1)] rfl (by decide)

/-- A label record matching "e1" whose `reportedTime` is `NULL`. -/
def nullTimeLabel : LabelRow := ⟨none, some "e1"⟩

/-- The flag column of an assembler result, when the run succeeded. -/
def flagsOf (r : Except String (List DatasetRow)) : Option (List Int) :=
  match r with
  | Except.ok l => some (l.map DatasetRow.is_fraud_flag)
  | Except.error _ => none

/-- Claim C5 counterexample: a labels source is supplied and a label record's
identifier matches the transaction's identifier, yet the emitted flag is `0`,
not `1`, because the matching record's `reportedTime` is `NULL` and the code
tests the joined `reportedTime` for `NULL` rather than the match itself. -/
theorem label_flag_cex :
    sqlIdEq nullTimeLabel.eventId txnLbl.eventId = true ∧
    flagsOf (assembleDataset [txnLbl] (some [nullTimeLabel]) (some stdEncDict))
      = some [0] :=
  ⟨rfl, rfl⟩

theorem mem_joinLabels_cases (ls : List LabelRow) (t : Txn) (ol : Option LabelRow)
    (h : ol ∈ joinLabels ls t) :
    (ol = none ∧ ∀ L ∈ ls, sqlIdEq L.eventId t.eventId = false) ∨
    (∃ L, ol = some L ∧ L ∈ ls ∧ sqlIdEq L.eventId t.eventId = true) := by
  unfold joinLabels at h
  cases hf : ls.filter (fun L => sqlIdEq L.eventId t.eventId) with
  | nil =>
    rw [hf] at h
    left
    refine ⟨List.mem_singleton.mp h, ?_⟩
    intro L hL
    have := List.filter_eq_nil_iff.mp hf L hL
    simpa using this
  | cons m ms =>
    rw [hf] at h
    right
    rcases List.mem_map.mp h with ⟨L, hL, rfl⟩
    have hLf : L ∈ ls.filter (fun L => sqlIdEq L.eventId t.eventId) := by
      rw [hf]
      exact hL
    rcases List.mem_filter.mp hLf with ⟨hmem, hpred⟩
    exact ⟨L, rfl, hmem, hpred⟩

theorem joinLabels_match_not_none (ls : List LabelRow) (t : Txn)
    (ol : Option LabelRow) (h : ol ∈ joinLabels ls t) (L : LabelRow)
    (hL : L ∈ ls) (hpred : sqlIdEq L.eventId t.eventId = true) : ol ≠ none := by
  unfold joinLabels at h
  cases hf : ls.filter (fun L => sqlIdEq L.eventId t.eventId) with
  | nil =>
    have := List.filter_eq_nil_iff.mp hf L hL
    simp [hpred] at this
  | cons m ms =>
    rw [hf] at h
    rcases List.mem_map.mp h with ⟨L2, _, rfl⟩
    simp

theorem fraudFlag_cases (b : Bool) (rt : Option String) :
    fraudFlag b rt = -1 ∨ fraudFlag b rt = 0 ∨ fraudFlag b rt = 1 := by
  unfold fraudFlag
  cases rt <;> cases b <;> simp

theorem mem_prelimDataset (txns : List Txn) (labelsOpt : Option (List LabelRow))
    (p : PrelimRow) (hp : p ∈ prelimDataset txns labelsOpt) :
    ∃ t ∈ txns, ∃ ol ∈ joinLabels (labelsOpt.getD []) t,
      p = mkPrelimRow labelsOpt.isSome t ol := by
  unfold prelimDataset at hp
  rcases List.mem_flatMap.mp hp with ⟨t, ht, hpt⟩
  rcases List.mem_map.mp hpt with ⟨ol, hol, rfl⟩
  exact ⟨t, ht, ol, hol, rfl⟩

theorem seqOptQ_length (l : List (Option ℚ)) (ms : List ℚ)
    (h : seqOptQ l = some ms) : ms.length = l.length := by
  induction l generalizing ms with
  | nil =>
    cases h
    rfl
  | cons a t ih =>
    cases a with
    | none => cases h
    | some x =>
      have h2 : (seqOptQ t).map (fun l2 => x :: l2) = some ms := h
      rcases Option.map_eq_some'.mp h2 with ⟨ms2, hms2, rfl⟩
      simp [ih ms2 hms2]

theorem map_flag_zipWith (l : List PrelimRow) (ms : List ℚ)
    (hlen : ms.length = l.length) :
    (List.zipWith finalizeRow l ms).map DatasetRow.is_fraud_flag
      = l.map PrelimRow.is_fraud_flag := by
  induction l generalizing ms with
  | nil =>
    cases ms with
    | nil => rfl
    | cons x mt => simp at hlen
  | cons a t ih =>
    cases ms with
    | nil => simp at hlen
    | cons x mt =>
      have hc : List.zipWith finalizeRow (a :: t) (x :: mt)
          = finalizeRow a x :: List.zipWith finalizeRow t mt := rfl
      rw [hc, List.map_cons, List.map_cons, ih mt (by simpa using hlen)]
      rfl

theorem assembleDataset_ok (txns : List Txn) (labelsOpt : Option (List LabelRow))
    (encDictOpt : Option (List (String × List (String × ℚ))))
    (out : List DatasetRow)
    (h : assembleDataset txns labelsOpt encDictOpt = Except.ok out) :
    ∃ ms, ms.length = (prelimDataset txns labelsOpt).length ∧
      out = List.zipWith finalizeRow (prelimDataset txns labelsOpt) ms := by
  unfold assembleDataset at h
  cases encDictOpt with
  | none => cases h
  | some encDict =>
    dsimp only at h
    cases hl : encDict.lookup "posEntryMode" with
    | none =>
      rw [hl] at h
      cases h
    | some encMap =>
      rw [hl] at h
      dsimp only at h
      by_cases hpre : prelimDataset txns labelsOpt = []
      · rw [if_pos hpre] at h
        cases h
      · rw [if_neg hpre] at h
        by_cases hh : ((prelimDataset txns labelsOpt).map
            (fun p => lookupEnc encMap p.posEntryMode)).head? = some none
        · rw [if_pos hh] at h
          cases h
        · rw [if_neg hh] at h
          cases hs : seqOptQ ((prelimDataset txns labelsOpt).map
            (fun p => lookupEnc encMap p.posEntryMode)) with
          | none =>
            rw [hs] at h
            cases h
          | some ms =>
            rw [hs] at h
            injection h with h2
            refine ⟨ms, ?_, h2.symm⟩
            have := seqOptQ_length _ ms hs
            simpa using this

/-- Claim C5 (amended): with no labels source every row's flag is `-1`; with a
labels source whose records all carry a non-NULL `reportedTime`, the flag is
`1` exactly when some label's identifier matches the row's identifier and `0`
exactly when none does; the flag only ever takes the values `-1`, `0`, `1`;
and a successful encoding step carries the flags unchanged into the final
output. -/
theorem label_semantics (txns : List Txn) (labelsOpt : Option (List LabelRow))
    (hrt : ∀ ls, labelsOpt = some ls → ∀ L ∈ ls, L.reportedTime ≠ none) :
    (labelsOpt = none →
      ∀ p ∈ prelimDataset txns labelsOpt, p.is_fraud_flag = -1) ∧
    (∀ ls, labelsOpt = some ls →
      ∀ p ∈ prelimDataset txns labelsOpt,
        (p.is_fraud_flag = 1 ↔ ∃ L ∈ ls, sqlIdEq L.eventId p.eventId = true) ∧
        (p.is_fraud_flag = 0 ↔ ¬ ∃ L ∈ ls, sqlIdEq L.eventId p.eventId = true)) ∧
    (∀ p ∈ prelimDataset txns labelsOpt,
      p.is_fraud_flag = -1 ∨ p.is_fraud_flag = 0 ∨ p.is_fraud_flag = 1) ∧
    (∀ encDictOpt out,
      assembleDataset txns labelsOpt encDictOpt = Except.ok out →
      out.map DatasetRow.is_fraud_flag
        = (prelimDataset txns labelsOpt).map PrelimRow.is_fraud_flag) := by
  refine ⟨?_, ?_, ?_, ?_⟩
  · intro hnone p hp
    subst hnone
    rcases mem_prelimDataset txns none p hp with ⟨t, _, ol, hol, rfl⟩
    rcases mem_joinLabels_cases [] t ol hol with ⟨rfl, _⟩ | ⟨L, _, hL, _⟩
    · rfl
    · cases hL
  · intro ls hls p hp
    subst hls
    rcases mem_prelimDataset txns (some ls) p hp with ⟨t, _, ol, hol, rfl⟩
    have hid : (mkPrelimRow (some ls).isSome t ol).eventId = t.eventId := rfl
    rcases mem_joinLabels_cases ls t ol hol with ⟨rfl, hall⟩ | ⟨L, rfl, hL, hpred⟩
    · have hflag : (mkPrelimRow (some ls).isSome t none).is_fraud_flag = 0 := rfl
      rw [hflag, hid]
      constructor
      · constructor
        · intro h01
          cases h01
        · intro ⟨L, hL, hp2⟩
          rw [hall L hL] at hp2
          cases hp2
      · constructor
        · intro _ ⟨L, hL, hp2⟩
          rw [hall L hL] at hp2
          cases hp2
        · intro _
          rfl
    · have hrtL := hrt ls rfl L hL
      cases hr : L.reportedTime with
      | none => exact absurd hr hrtL
      | some s =>
        have hflag : (mkPrelimRow (some ls).isSome t (some L)).is_fraud_flag = 1 := by
          show fraudFlag true (joinedReportedTime (some L)) = 1
          show fraudFlag true L.reportedTime = 1
          rw [hr]
          rfl
        rw [hflag, hid]
        constructor
        · constructor
          · intro _
            exact ⟨L, hL, hpred⟩
          · intro _
            rfl
        · constructor
          · intro h10
            cases h10
          · intro hno
            exact absurd ⟨L, hL, hpred⟩ hno
  · intro p hp
    rcases mem_prelimDataset txns labelsOpt p hp with ⟨t, _, ol, _, rfl⟩
    exact fraudFlag_cases _ _
  · intro encDictOpt out h
    rcases assembleDataset_ok txns labelsOpt encDictOpt out h with ⟨ms, hlen, rfl⟩
    exact map_flag_zipWith _ ms hlen

/-- A label record matching "e1" with a present `reportedTime`. -/
def matchedLabel : LabelRow := ⟨some "2017-03-06 00:00:00", some "e1"⟩

theorem label_semantics_witness :
    ((some [matchedLabel] : Option (List LabelRow)) = none →
      ∀ p ∈ prelimDataset [txnLbl] (some [matchedLabel]), p.is_fraud_flag = -1) ∧
    (∀ ls, (some [matchedLabel] : Option (List LabelRow)) = some ls →
      ∀ p ∈ prelimDataset [txnLbl] (some [matchedLabel]),
        (p.is_fraud_flag = 1 ↔ ∃ L ∈ ls, sqlIdEq L.eventId p.eventId = true) ∧
        (p.is_fraud_flag = 0 ↔ ¬ ∃ L ∈ ls, sqlIdEq L.eventId p.eventId = true)) ∧
    (∀ p ∈ prelimDataset [txnLbl] (some [matchedLabel]),
      p.is_fraud_flag = -1 ∨ p.is_fraud_flag = 0 ∨ p.is_fraud_flag = 1) ∧
    (∀ encDictOpt out,
      assembleDataset [txnLbl] (some [matchedLabel]) encDictOpt = Except.ok out →
      out.map DatasetRow.is_fraud_flag
        = (prelimDataset [txnLbl] (some [matchedLabel])).map PrelimRow.is_fraud_flag) :=
  label_semantics [txnLbl] (some [matchedLabel]) (by
    intro ls h L hL
    cases h
    rcases List.mem_singleton.mp hL with rfl
    decide)

/-! ## Serialization of the encoding dictionary (`json.dump` / `json.load`)

The dictionary file is the nested JSON object written by
`generate_categorical_encoding_dict.main` and read back by
`generate_model_dataset.main`.  A serialized double is modelled by the exact
decimal `mant / 10 ^ places` that the float repr denotes: every IEEE-754
double is exactly such a decimal, Python's repr emits a decimal string that
parses back to the very same double, and `json.load` uses that parse.  The
printer below emits the object compactly; the parser skips whitespace between
tokens, so the `indent=4` layout of the real file is also covered. -/

/-- A serialized double: the decimal value `mant / 10 ^ places`. -/
structure DecNum where
  mant : Int
  places : Nat
deriving Repr, DecidableEq

/-- The rational a serialized double denotes. -/
def DecNum.toRat (d : DecNum) : ℚ := (d.mant : ℚ) / ((10 : ℚ) ^ d.places)

/-- Structurally recursive digit printer (the fuel bounds the digit count, so
the kernel can evaluate it; `natDigitsChars_eq` relates it to `Nat.digits`). -/
def natDigitsAux : Nat → Nat → List Char
  | _, 0 => []
  | n, fuel + 1 =>
      if n = 0 then []
      else natDigitsAux (n / 10) fuel ++ [Nat.digitChar (n % 10)]

/-- Big-endian decimal digit characters of a natural number (empty for 0). -/
def natDigitsChars (n : Nat) : List Char :=
  natDigitsAux n n

/-- Digits of `n`, left-padded with zeros to at least `minLen` characters. -/
def printNatPadded (n minLen : Nat) : List Char :=
  List.replicate (minLen - (natDigitsChars n).length) '0' ++ natDigitsChars n

/-- The unsigned body of a decimal: integer digits, then a point and exactly
`k` fraction digits when `k > 0`. -/
def printBody (n k : Nat) : List Char :=
  (printNatPadded n (k + 1)).take ((printNatPadded n (k + 1)).length - k) ++
    (if k = 0 then []
     else '.' :: (printNatPadded n (k + 1)).drop ((printNatPadded n (k + 1)).length - k))

/-- Serialize one float value. -/
def printDecNum (d : DecNum) : List Char :=
  (if d.mant < 0 then ['-'] else []) ++ printBody d.mant.natAbs d.places

def charVal (c : Char) : Nat := c.toNat - 48

/-- Numeric value of a big-endian decimal digit string. -/
def digitsToNat (ds : List Char) : Nat :=
  ds.foldl (fun a c => 10 * a + charVal c) 0

def applySign (neg : Bool) (n : Nat) : Int :=
  if neg then -(n : Int) else (n : Int)

/-- Parse the fraction part after the decimal point. -/
def parseFrac (neg : Bool) (ipart : Nat) (cs3 : List Char) :
    Option (DecNum × List Char) :=
  if cs3.takeWhile Char.isDigit = [] then none
  else
    some (⟨applySign neg (ipart * 10 ^ (cs3.takeWhile Char.isDigit).length
        + digitsToNat (cs3.takeWhile Char.isDigit)),
      (cs3.takeWhile Char.isDigit).length⟩, cs3.dropWhile Char.isDigit)

/-- Parse the unsigned part of a decimal: digits, then an optional point and
fraction digits. -/
def parseDecNumCore (neg : Bool) (cs1 : List Char) :
    Option (DecNum × List Char) :=
  if cs1.takeWhile Char.isDigit = [] then none
  else
    if (cs1.dropWhile Char.isDigit).head? = some '.' then
      parseFrac neg (digitsToNat (cs1.takeWhile Char.isDigit))
        (cs1.dropWhile Char.isDigit).tail
    else
      some (⟨applySign neg (digitsToNat (cs1.takeWhile Char.isDigit)), 0⟩,
        cs1.dropWhile Char.isDigit)

/-- Parse one JSON number (integer or fixed-point decimal). -/
def parseDecNum (cs : List Char) : Option (DecNum × List Char) :=
  if cs.head? = some '-' then parseDecNumCore true cs.tail
  else parseDecNumCore false cs

/-- Scan the characters of a string literal up to the closing quote. -/
def parseStringAux : List Char → List Char → Option (String × List Char)
  | [], _ => none
  | c :: t, acc =>
      if c = '"' then some (String.mk acc.reverse, t)
      else parseStringAux t (c :: acc)

/-- Parse a JSON string literal. -/
def parseStringLit : List Char → Option (String × List Char)
  | '"' :: t => parseStringAux t []
  | _ => none

def isWsChar (c : Char) : Bool :=
  c == ' ' || c == '\n' || c == '\t' || c == '\r'

/-- Skip the whitespace `json.load` tolerates between tokens. -/
def skipWs : List Char → List Char
  | [] => []
  | c :: t => if isWsChar c then skipWs t else c :: t

def printStringLit (s : String) : List Char := '"' :: (s.data ++ ['"'])

def printInnerEntry (e : String × DecNum) : List Char :=
  printStringLit e.1 ++ ':' :: printDecNum e.2

def printInnerEntries : List (String × DecNum) → List Char
  | [] => []
  | [e] => printInnerEntry e
  | e :: e2 :: rest => printInnerEntry e ++ ',' :: printInnerEntries (e2 :: rest)

def printInnerObj (m : List (String × DecNum)) : List Char :=
  '\x7b' :: (printInnerEntries m ++ ['\x7d'])

def printOuterEntry (e : String × List (String × DecNum)) : List Char :=
  printStringLit e.1 ++ ':' :: printInnerObj e.2

def printOuterEntries : List (String × List (String × DecNum)) → List Char
  | [] => []
  | [e] => printOuterEntry e
  | e :: e2 :: rest => printOuterEntry e ++ ',' :: printOuterEntries (e2 :: rest)

/-- `json.dump` of the whole dictionary (modulo inter-token whitespace). -/
def printEncDict (d : List (String × List (String × DecNum))) : List Char :=
  '\x7b' :: (printOuterEntries d ++ ['\x7d'])

def serializeEncDict (d : List (String × List (String × DecNum))) : String :=
  String.mk (printEncDict d)

/-- Parse the entries of an inner object after its opening brace. -/
def parseInnerTail : Nat → List Char → Option (List (String × DecNum) × List Char)
  | 0, _ => none
  | fuel + 1, cs =>
    match parseStringLit (skipWs cs) with
    | none => none
    | some (k, cs1) =>
      match skipWs cs1 with
      | ':' :: cs2 =>
        match parseDecNum (skipWs cs2) with
        | none => none
        | some (v, cs3) =>
          match skipWs cs3 with
          | ',' :: cs4 =>
            match parseInnerTail fuel cs4 with
            | none => none
            | some (rest, cs5) => some ((k, v) :: rest, cs5)
          | '\x7d' :: cs4 => some ([(k, v)], cs4)
          | _ => none
      | _ => none

/-- Parse one inner JSON object (a field's value → float mapping). -/
def parseInnerObj (fuel : Nat) (cs : List Char) :
    Option (List (String × DecNum) × List Char) :=
  match skipWs cs with
  | '\x7b' :: cs1 =>
    match skipWs cs1 with
    | '\x7d' :: cs2 => some ([], cs2)
    | _ => parseInnerTail fuel cs1
  | _ => none

/-- Parse the entries of the top-level object after its opening brace. -/
def parseOuterTail : Nat → List Char →
    Option (List (String × List (String × DecNum)) × List Char)
  | 0, _ => none
  | fuel + 1, cs =>
    match parseStringLit (skipWs cs) with
    | none => none
    | some (k, cs1) =>
      match skipWs cs1 with
      | ':' :: cs2 =>
        match parseInnerObj fuel cs2 with
        | none => none
        | some (m, cs3) =>
          match skipWs cs3 with
          | ',' :: cs4 =>
            match parseOuterTail fuel cs4 with
            | none => none
            | some (rest, cs5) => some ((k, m) :: rest, cs5)
          | '\x7d' :: cs4 => some ([(k, m)], cs4)
          | _ => none
      | _ => none

/-- Parse the top-level JSON object. -/
def parseOuterObj (fuel : Nat) (cs : List Char) :
    Option (List (String × List (String × DecNum)) × List Char) :=
  match skipWs cs with
  | '\x7b' :: cs1 =>
    match skipWs cs1 with
    | '\x7d' :: cs2 => some ([], cs2)
    | _ => parseOuterTail fuel cs1
  | _ => none

/-- `json.load` of the dictionary file: parse the top-level object and demand
that nothing but whitespace follows. -/
def deserializeEncDict (s : String) :
    Option (List (String × List (String × DecNum))) :=
  match parseOuterObj (s.length + 1) s.data with
  | some (d, rest) => if skipWs rest = [] then some d else none
  | none => none

/-- The parser fuel an outer-entry list consumes. -/
def outerNeed : List (String × List (String × DecNum)) → Nat
  | [] => 0
  | e :: t => 1 + e.2.length + outerNeed t

/-! ### Digit-printing lemmas -/

theorem natDigitsAux_eq (fuel : Nat) : ∀ n, n ≤ fuel →
    natDigitsAux n fuel = ((Nat.digits 10 n).map Nat.digitChar).reverse := by
  induction fuel with
  | zero =>
    intro n h
    have hn : n = 0 := by omega
    subst hn
    simp [natDigitsAux]
  | succ fuel ih =>
    intro n h
    by_cases hn : n = 0
    · subst hn
      simp [natDigitsAux]
    · have hdiv : n / 10 < n := Nat.div_lt_self (Nat.pos_of_ne_zero hn) (by norm_num)
      rw [natDigitsAux, if_neg hn, ih (n / 10) (by omega),
        Nat.digits_def' (by norm_num : (1:ℕ) < 10) (Nat.pos_of_ne_zero hn)]
      simp

theorem natDigitsChars_eq (n : Nat) :
    natDigitsChars n = ((Nat.digits 10 n).map Nat.digitChar).reverse :=
  natDigitsAux_eq n n le_rfl

theorem digitChar_isDigit (d : Nat) (h : d < 10) :
    (Nat.digitChar d).isDigit = true := by
  interval_cases d <;> decide

theorem charVal_digitChar (d : Nat) (h : d < 10) :
    charVal (Nat.digitChar d) = d := by
  interval_cases d <;> decide

theorem natDigitsChars_digits (n : Nat) :
    ∀ c ∈ natDigitsChars n, c.isDigit = true := by
  intro c hc
  rw [natDigitsChars_eq, List.mem_reverse] at hc
  rcases List.mem_map.mp hc with ⟨d, hd, rfl⟩
  exact digitChar_isDigit d (Nat.digits_lt_base (by norm_num) hd)

theorem digitsToNat_natDigitsChars (n : Nat) :
    digitsToNat (natDigitsChars n) = n := by
  rw [natDigitsChars_eq]
  unfold digitsToNat
  rw [List.foldl_reverse, List.foldr_map]
  have hfold : ∀ l : List Nat, (∀ d ∈ l, d < 10) →
      List.foldr (fun d a => 10 * a + charVal (Nat.digitChar d)) 0 l
        = Nat.ofDigits 10 l := by
    intro l hl
    induction l with
    | nil => simp [Nat.ofDigits]
    | cons d t ih =>
      rw [List.foldr_cons, ih (fun x hx => hl x (List.mem_cons_of_mem d hx)),
        charVal_digitChar d (hl d (List.mem_cons_self d t)), Nat.ofDigits_cons]
      omega
  rw [hfold (Nat.digits 10 n) (fun d hd => Nat.digits_lt_base (by norm_num) hd),
    Nat.ofDigits_digits]

theorem printNatPadded_digits (n m : Nat) :
    ∀ c ∈ printNatPadded n m, c.isDigit = true := by
  intro c hc
  unfold printNatPadded at hc
  rcases List.mem_append.mp hc with h | h
  · rw [List.eq_of_mem_replicate h]
    decide
  · exact natDigitsChars_digits n c h

theorem printNatPadded_length (n m : Nat) :
    m ≤ (printNatPadded n m).length := by
  unfold printNatPadded
  rw [List.length_append, List.length_replicate]
  omega

theorem digitsToNat_replicate_zero (l : List Char) (z : Nat) :
    digitsToNat (List.replicate z '0' ++ l) = digitsToNat l := by
  unfold digitsToNat
  rw [List.foldl_append]
  have hz : List.foldl (fun a c => 10 * a + charVal c) 0 (List.replicate z '0')
      = 0 := by
    induction z with
    | zero => rfl
    | succ z ih =>
      rw [List.replicate_succ, List.foldl_cons]
      have h0 : (10 * 0 + charVal '0') = 0 := by decide
      rw [h0, ih]
  rw [hz]

theorem digitsToNat_printNatPadded (n m : Nat) :
    digitsToNat (printNatPadded n m) = n := by
  unfold printNatPadded
  rw [digitsToNat_replicate_zero, digitsToNat_natDigitsChars]

theorem digitsToNat_from (l : List Char) : ∀ a : Nat,
    List.foldl (fun x c => 10 * x + charVal c) a l
      = a * 10 ^ l.length + digitsToNat l := by
  induction l with
  | nil =>
    intro a
    simp [digitsToNat]
  | cons c t ih =>
    intro a
    rw [List.foldl_cons, ih (10 * a + charVal c)]
    have h2 : digitsToNat (c :: t) = (10 * 0 + charVal c) * 10 ^ t.length
        + digitsToNat t := by
      unfold digitsToNat
      rw [List.foldl_cons, ih (10 * 0 + charVal c)]
      unfold digitsToNat
      rfl
    rw [h2, List.length_cons]
    ring

theorem digitsToNat_append (l1 l2 : List Char) :
    digitsToNat (l1 ++ l2)
      = digitsToNat l1 * 10 ^ l2.length + digitsToNat l2 := by
  have h1 : digitsToNat (l1 ++ l2)
      = List.foldl (fun x c => 10 * x + charVal c) (digitsToNat l1) l2 := by
    unfold digitsToNat
    rw [List.foldl_append]
  rw [h1, digitsToNat_from]

/-! ### takeWhile / dropWhile over a digit segment -/

theorem takeWhile_append_all {p : Char → Bool} (r : List Char) :
    ∀ l : List Char, (∀ c ∈ l, p c = true) →
      (l ++ r).takeWhile p = l ++ r.takeWhile p ∧
      (l ++ r).dropWhile p = r.dropWhile p := by
  intro l
  induction l with
  | nil =>
    intro _
    simp
  | cons c t ih =>
    intro hl
    have hc := hl c (List.mem_cons_self c t)
    have iht := ih (fun x hx => hl x (List.mem_cons_of_mem c hx))
    simp [List.takeWhile_cons, List.dropWhile_cons, hc, iht.1, iht.2]

theorem head_fail_takeWhile {p : Char → Bool} (r : List Char)
    (hr : ∀ c, r.head? = some c → p c = false) :
    r.takeWhile p = [] ∧ r.dropWhile p = r := by
  cases r with
  | nil => simp
  | cons c t =>
    have := hr c rfl
    simp [List.takeWhile_cons, List.dropWhile_cons, this]

theorem digits_segment {l r : List Char} (hl : ∀ c ∈ l, c.isDigit = true)
    (hr : ∀ c, r.head? = some c → c.isDigit = false) :
    (l ++ r).takeWhile Char.isDigit = l ∧
    (l ++ r).dropWhile Char.isDigit = r := by
  have h1 := takeWhile_append_all r l hl
  have h2 := head_fail_takeWhile r hr
  rw [h1.1, h1.2, h2.1, h2.2]
  simp

/-! ### Number round trip -/

theorem head_ne_dot {r : List Char}
    (hr : ∀ c, r.head? = some c → c.isDigit = false ∧ c ≠ '.') :
    ¬ r.head? = some '.' := by
  intro h
  cases r with
  | nil => cases h
  | cons c t =>
    have hc : c = '.' := by
      injection h
    exact (hr c rfl).2 hc

theorem parseDecNumCore_print (neg : Bool) (n k : Nat) (r : List Char)
    (hr : ∀ c, r.head? = some c → c.isDigit = false ∧ c ≠ '.') :
    parseDecNumCore neg (printBody n k ++ r)
      = some (⟨applySign neg n, k⟩, r) := by
  have hdig := printNatPadded_digits n (k + 1)
  have hlen := printNatPadded_length n (k + 1)
  have hval := digitsToNat_printNatPadded n (k + 1)
  have hrd : ∀ c, r.head? = some c → c.isDigit = false := fun c hc => (hr c hc).1
  by_cases hk0 : k = 0
  · subst hk0
    have hb : printBody n 0 ++ r = printNatPadded n 1 ++ r := by
      unfold printBody
      simp
    have hseg := digits_segment hdig hrd
    have hne : printNatPadded n 1 ≠ [] := by
      intro h
      rw [h] at hlen
      simp at hlen
    unfold parseDecNumCore
    rw [hb, hseg.1, hseg.2, if_neg hne, if_neg (head_ne_dot hr), hval]
  · have hip_sub := List.take_subset
      ((printNatPadded n (k + 1)).length - k) (printNatPadded n (k + 1))
    have hfp_sub := List.drop_subset
      ((printNatPadded n (k + 1)).length - k) (printNatPadded n (k + 1))
    have hip_digits : ∀ c ∈ (printNatPadded n (k + 1)).take
        ((printNatPadded n (k + 1)).length - k), c.isDigit = true :=
      fun c hc => hdig c (hip_sub hc)
    have hfp_digits : ∀ c ∈ (printNatPadded n (k + 1)).drop
        ((printNatPadded n (k + 1)).length - k), c.isDigit = true :=
      fun c hc => hdig c (hfp_sub hc)
    have hip_len : ((printNatPadded n (k + 1)).take
        ((printNatPadded n (k + 1)).length - k)).length
          = (printNatPadded n (k + 1)).length - k := by
      rw [List.length_take]
      omega
    have hfp_len : ((printNatPadded n (k + 1)).drop
        ((printNatPadded n (k + 1)).length - k)).length = k := by
      rw [List.length_drop]
      omega
    have hip_ne : (printNatPadded n (k + 1)).take
        ((printNatPadded n (k + 1)).length - k) ≠ [] := by
      intro h
      rw [h] at hip_len
      simp at hip_len
      omega
    have hfp_ne : (printNatPadded n (k + 1)).drop
        ((printNatPadded n (k + 1)).length - k) ≠ [] := by
      intro h
      rw [h] at hfp_len
      simp at hfp_len
      omega
    have hsplit : printBody n k ++ r
        = (printNatPadded n (k + 1)).take ((printNatPadded n (k + 1)).length - k)
          ++ ('.' :: ((printNatPadded n (k + 1)).drop
              ((printNatPadded n (k + 1)).length - k) ++ r)) := by
      unfold printBody
      rw [if_neg hk0]
      simp [List.append_assoc]
    have hdot_head : ∀ c, ('.' :: ((printNatPadded n (k + 1)).drop
        ((printNatPadded n (k + 1)).length - k) ++ r)).head? = some c →
        c.isDigit = false := by
      intro c hc
      cases hc
      decide
    have hseg1 := digits_segment hip_digits hdot_head
    have hcond : ('.' :: ((printNatPadded n (k + 1)).drop
        ((printNatPadded n (k + 1)).length - k) ++ r)).head? = some '.' := rfl
    unfold parseDecNumCore
    rw [hsplit, hseg1.1, hseg1.2, if_neg hip_ne, if_pos hcond]
    have hseg2 := digits_segment hfp_digits hrd
    unfold parseFrac
    rw [List.tail_cons, hseg2.1, hseg2.2, if_neg hfp_ne, hfp_len]
    have happ := digitsToNat_append
      ((printNatPadded n (k + 1)).take ((printNatPadded n (k + 1)).length - k))
      ((printNatPadded n (k + 1)).drop ((printNatPadded n (k + 1)).length - k))
    rw [List.take_append_drop, hval, hfp_len] at happ
    rw [← happ]

theorem printBody_head (n k : Nat) :
    ∃ c t, printBody n k = c :: t ∧ c.isDigit = true := by
  have hlen := printNatPadded_length n (k + 1)
  have hip_len : ((printNatPadded n (k + 1)).take
      ((printNatPadded n (k + 1)).length - k)).length
        = (printNatPadded n (k + 1)).length - k := by
    rw [List.length_take]
    omega
  rcases hip : (printNatPadded n (k + 1)).take
      ((printNatPadded n (k + 1)).length - k) with _ | ⟨c, t2⟩
  · rw [hip] at hip_len
    simp at hip_len
    omega
  · have hc : c.isDigit = true := by
      have hmem : c ∈ (printNatPadded n (k + 1)).take
          ((printNatPadded n (k + 1)).length - k) := by
        rw [hip]
        exact List.mem_cons_self c t2
      exact printNatPadded_digits n (k + 1) c
        (List.take_subset _ _ hmem)
    refine ⟨c, t2 ++ (if k = 0 then []
      else '.' :: (printNatPadded n (k + 1)).drop
        ((printNatPadded n (k + 1)).length - k)), ?_, hc⟩
    unfold printBody
    rw [hip]
    simp

theorem parseDecNum_print (v : DecNum) (r : List Char)
    (hr : ∀ c, r.head? = some c → c.isDigit = false ∧ c ≠ '.') :
    parseDecNum (printDecNum v ++ r) = some (v, r) := by
  by_cases hneg : v.mant < 0
  · have hp : printDecNum v ++ r
        = '-' :: (printBody v.mant.natAbs v.places ++ r) := by
      unfold printDecNum
      rw [if_pos hneg]
      simp
    rw [hp]
    unfold parseDecNum
    have hcond : ('-' :: (printBody v.mant.natAbs v.places ++ r)).head?
        = some '-' := rfl
    rw [if_pos hcond, List.tail_cons,
      parseDecNumCore_print true v.mant.natAbs v.places r hr]
    have hsign : applySign true v.mant.natAbs = v.mant := by
      show -(v.mant.natAbs : Int) = v.mant
      omega
    rw [hsign]
  · rcases printBody_head v.mant.natAbs v.places with ⟨c, t2, hshape, hcdig⟩
    have hp : printDecNum v ++ r = c :: (t2 ++ r) := by
      unfold printDecNum
      rw [if_neg hneg, hshape]
      simp
    rw [hp]
    have hcm : ¬ (c :: (t2 ++ r)).head? = some '-' := by
      intro h
      have hc : c = '-' := by injection h
      subst hc
      exact absurd hcdig (by decide)
    unfold parseDecNum
    rw [if_neg hcm]
    have hback : c :: (t2 ++ r) = printBody v.mant.natAbs v.places ++ r := by
      rw [hshape]
      simp
    rw [hback, parseDecNumCore_print false v.mant.natAbs v.places r hr]
    have hsign : applySign false v.mant.natAbs = v.mant := by
      show (v.mant.natAbs : Int) = v.mant
      omega
    rw [hsign]

/-! ### String-literal round trip and whitespace -/

theorem parseStringAux_print (s : List Char) : ∀ (acc r : List Char),
    (∀ c ∈ s, c ≠ '"') →
    parseStringAux (s ++ '"' :: r) acc
      = some (String.mk (acc.reverse ++ s), r) := by
  induction s with
  | nil =>
    intro acc r _
    simp [parseStringAux]
  | cons c t ih =>
    intro acc r hs
    have hc : c ≠ '"' := hs c (List.mem_cons_self c t)
    have hrec := ih (c :: acc) r (fun x hx => hs x (List.mem_cons_of_mem c hx))
    rw [List.cons_append]
    show (if c = '"' then some (String.mk acc.reverse, t ++ '"' :: r)
      else parseStringAux (t ++ '"' :: r) (c :: acc)) = _
    rw [if_neg hc, hrec]
    simp

theorem parseStringLit_print (k : String) (r : List Char)
    (hk : ∀ c ∈ k.data, c ≠ '"') :
    parseStringLit (printStringLit k ++ r) = some (k, r) := by
  have hshape : printStringLit k ++ r = '"' :: (k.data ++ '"' :: r) := by
    unfold printStringLit
    simp
  rw [hshape]
  show parseStringAux (k.data ++ '"' :: r) [] = some (k, r)
  rw [parseStringAux_print k.data [] r hk]
  simp

theorem skipWs_cons (c : Char) (t : List Char) (h : isWsChar c = false) :
    skipWs (c :: t) = c :: t := by
  simp [skipWs, h]

theorem isWs_false_of_digit (c : Char) (h : c.isDigit = true) :
    isWsChar c = false := by
  have h1 : c ≠ ' ' := by
    intro e
    subst e
    exact absurd h (by decide)
  have h2 : c ≠ '\n' := by
    intro e
    subst e
    exact absurd h (by decide)
  have h3 : c ≠ '\t' := by
    intro e
    subst e
    exact absurd h (by decide)
  have h4 : c ≠ '\r' := by
    intro e
    subst e
    exact absurd h (by decide)
  simp [isWsChar, h1, h2, h3, h4]

theorem skipWs_quote (k : String) (X : List Char) :
    skipWs (printStringLit k ++ X) = printStringLit k ++ X := by
  have hshape : printStringLit k ++ X = '"' :: (k.data ++ '"' :: X) := by
    unfold printStringLit
    simp
  rw [hshape, skipWs_cons _ _ (by decide)]

theorem skipWs_decnum (v : DecNum) (X : List Char) :
    skipWs (printDecNum v ++ X) = printDecNum v ++ X := by
  by_cases hneg : v.mant < 0
  · have hp : printDecNum v ++ X
        = '-' :: (printBody v.mant.natAbs v.places ++ X) := by
      unfold printDecNum
      rw [if_pos hneg]
      simp
    rw [hp, skipWs_cons _ _ (by decide)]
  · rcases printBody_head v.mant.natAbs v.places with ⟨c, t2, hshape, hcdig⟩
    have hp : printDecNum v ++ X = c :: (t2 ++ X) := by
      unfold printDecNum
      rw [if_neg hneg, hshape]
      simp
    rw [hp, skipWs_cons _ _ (isWs_false_of_digit c hcdig)]

/-! ### Object round trip -/

theorem printInnerEntries_cons_head (e : String × DecNum)
    (t : List (String × DecNum)) :
    ∃ y, printInnerEntries (e :: t) = '"' :: y := by
  cases t with
  | nil => exact ⟨(e.1.data ++ ['"']) ++ (':' :: printDecNum e.2), rfl⟩
  | cons e2 t2 =>
    exact ⟨((e.1.data ++ ['"']) ++ (':' :: printDecNum e.2))
      ++ (',' :: printInnerEntries (e2 :: t2)), rfl⟩

theorem parseInnerTail_print (m : List (String × DecNum)) :
    ∀ (fuel : Nat) (r : List Char), m ≠ [] → m.length ≤ fuel →
    (∀ e ∈ m, ∀ c ∈ e.1.data, c ≠ '"') →
    parseInnerTail fuel (printInnerEntries m ++ '\x7d' :: r) = some (m, r) := by
  induction m with
  | nil =>
    intro fuel r hne _ _
    exact absurd rfl hne
  | cons e t ih =>
    intro fuel r _ hfuel hkeys
    cases fuel with
    | zero => simp at hfuel
    | succ f =>
      have hke : ∀ c ∈ e.1.data, c ≠ '"' := hkeys e (List.mem_cons_self e t)
      cases t with
      | nil =>
        have h1 : printInnerEntries [e] ++ '\x7d' :: r
            = printStringLit e.1 ++ (':' :: (printDecNum e.2 ++ ('\x7d' :: r))) := by
          simp [printInnerEntries, printInnerEntry]
        have h2 := skipWs_quote e.1 (':' :: (printDecNum e.2 ++ ('\x7d' :: r)))
        have h3 := parseStringLit_print e.1
          (':' :: (printDecNum e.2 ++ ('\x7d' :: r))) hke
        have h4 := skipWs_cons ':' (printDecNum e.2 ++ ('\x7d' :: r)) (by decide)
        have h5 := skipWs_decnum e.2 ('\x7d' :: r)
        have h6 := parseDecNum_print e.2 ('\x7d' :: r) (by
          intro c hc
          cases hc
          exact ⟨by decide, by decide⟩)
        have h7 := skipWs_cons '\x7d' r (by decide)
        rw [h1]
        simp only [parseInnerTail, h2, h3, h4, h5, h6, h7]
      | cons e2 t2 =>
        have hrec := ih f r (by simp)
          (by
            simp only [List.length_cons] at hfuel ⊢
            omega)
          (fun x hx => hkeys x (List.mem_cons_of_mem e hx))
        have h1 : printInnerEntries (e :: e2 :: t2) ++ '\x7d' :: r
            = printStringLit e.1 ++ (':' :: (printDecNum e.2
              ++ (',' :: (printInnerEntries (e2 :: t2) ++ '\x7d' :: r)))) := by
          simp [printInnerEntries, printInnerEntry]
        have h2 := skipWs_quote e.1 (':' :: (printDecNum e.2
          ++ (',' :: (printInnerEntries (e2 :: t2) ++ '\x7d' :: r))))
        have h3 := parseStringLit_print e.1 (':' :: (printDecNum e.2
          ++ (',' :: (printInnerEntries (e2 :: t2) ++ '\x7d' :: r)))) hke
        have h4 := skipWs_cons ':' (printDecNum e.2
          ++ (',' :: (printInnerEntries (e2 :: t2) ++ '\x7d' :: r))) (by decide)
        have h5 := skipWs_decnum e.2
          (',' :: (printInnerEntries (e2 :: t2) ++ '\x7d' :: r))
        have h6 := parseDecNum_print e.2
          (',' :: (printInnerEntries (e2 :: t2) ++ '\x7d' :: r)) (by
          intro c hc
          cases hc
          exact ⟨by decide, by decide⟩)
        have h7 := skipWs_cons ','
          (printInnerEntries (e2 :: t2) ++ '\x7d' :: r) (by decide)
        rw [h1]
        simp only [parseInnerTail, h2, h3, h4, h5, h6, h7, hrec]

theorem parseInnerObj_print (m : List (String × DecNum)) (fuel : Nat)
    (r : List Char) (hfuel : m.length ≤ fuel)
    (hkeys : ∀ e ∈ m, ∀ c ∈ e.1.data, c ≠ '"') :
    parseInnerObj fuel (printInnerObj m ++ r) = some (m, r) := by
  cases m with
  | nil =>
    have h1 : printInnerObj [] ++ r = '\x7b' :: ('\x7d' :: r) := by
      simp [printInnerObj, printInnerEntries]
    have h2 := skipWs_cons '\x7b' ('\x7d' :: r) (by decide)
    have h3 := skipWs_cons '\x7d' r (by decide)
    rw [h1]
    simp only [parseInnerObj, h2, h3]
  | cons e t =>
    rcases printInnerEntries_cons_head e t with ⟨y, hy⟩
    have h1 : printInnerObj (e :: t) ++ r
        = '\x7b' :: (printInnerEntries (e :: t) ++ '\x7d' :: r) := by
      simp [printInnerObj]
    have hhead : printInnerEntries (e :: t) ++ '\x7d' :: r
        = '"' :: (y ++ '\x7d' :: r) := by
      rw [hy]
      simp
    have h2 := skipWs_cons '\x7b' ('"' :: (y ++ '\x7d' :: r)) (by decide)
    have h3 := skipWs_cons '"' (y ++ '\x7d' :: r) (by decide)
    have h4 : parseInnerTail fuel ('"' :: (y ++ '\x7d' :: r)) = some (e :: t, r) := by
      rw [← hhead]
      exact parseInnerTail_print (e :: t) fuel r (by simp) hfuel hkeys
    rw [h1, hhead]
    simp only [parseInnerObj, h2, h3, h4]
    rfl

theorem printOuterEntries_cons_head (e : String × List (String × DecNum))
    (t : List (String × List (String × DecNum))) :
    ∃ y, printOuterEntries (e :: t) = '"' :: y := by
  cases t with
  | nil => exact ⟨(e.1.data ++ ['"']) ++ (':' :: printInnerObj e.2), rfl⟩
  | cons e2 t2 =>
    exact ⟨((e.1.data ++ ['"']) ++ (':' :: printInnerObj e.2))
      ++ (',' :: printOuterEntries (e2 :: t2)), rfl⟩

theorem parseOuterTail_print (d : List (String × List (String × DecNum))) :
    ∀ (fuel : Nat) (r : List Char), d ≠ [] → outerNeed d ≤ fuel →
    (∀ e ∈ d, (∀ c ∈ e.1.data, c ≠ '"') ∧
      ∀ e2 ∈ e.2, ∀ c ∈ e2.1.data, c ≠ '"') →
    parseOuterTail fuel (printOuterEntries d ++ '\x7d' :: r) = some (d, r) := by
  induction d with
  | nil =>
    intro fuel r hne _ _
    exact absurd rfl hne
  | cons e t ih =>
    intro fuel r _ hfuel hkeys
    cases fuel with
    | zero =>
      exfalso
      have : outerNeed (e :: t) = 1 + e.2.length + outerNeed t := rfl
      omega
    | succ f =>
      have hke := hkeys e (List.mem_cons_self e t)
      have hneed : outerNeed (e :: t) = 1 + e.2.length + outerNeed t := rfl
      have hobj := parseInnerObj_print e.2 f
      cases t with
      | nil =>
        have h1 : printOuterEntries [e] ++ '\x7d' :: r
            = printStringLit e.1 ++ (':' :: (printInnerObj e.2
              ++ ('\x7d' :: r))) := by
          simp [printOuterEntries, printOuterEntry]
        have h2 := skipWs_quote e.1
          (':' :: (printInnerObj e.2 ++ ('\x7d' :: r)))
        have h3 := parseStringLit_print e.1
          (':' :: (printInnerObj e.2 ++ ('\x7d' :: r))) hke.1
        have h4 := skipWs_cons ':'
          (printInnerObj e.2 ++ ('\x7d' :: r)) (by decide)
        have h5 := parseInnerObj_print e.2 f ('\x7d' :: r) (by omega) hke.2
        have h6 := skipWs_cons '\x7d' r (by decide)
        rw [h1]
        simp only [parseOuterTail, h2, h3, h4, h5, h6]
      | cons e2 t2 =>
        have hrec := ih f r (by simp)
          (by
            have : outerNeed (e2 :: t2) = 1 + e2.2.length + outerNeed t2 := rfl
            omega)
          (fun x hx => hkeys x (List.mem_cons_of_mem e hx))
        have h1 : printOuterEntries (e :: e2 :: t2) ++ '\x7d' :: r
            = printStringLit e.1 ++ (':' :: (printInnerObj e.2
              ++ (',' :: (printOuterEntries (e2 :: t2) ++ '\x7d' :: r)))) := by
          simp [printOuterEntries, printOuterEntry]
        have h2 := skipWs_quote e.1 (':' :: (printInnerObj e.2
          ++ (',' :: (printOuterEntries (e2 :: t2) ++ '\x7d' :: r))))
        have h3 := parseStringLit_print e.1 (':' :: (printInnerObj e.2
          ++ (',' :: (printOuterEntries (e2 :: t2) ++ '\x7d' :: r)))) hke.1
        have h4 := skipWs_cons ':' (printInnerObj e.2
          ++ (',' :: (printOuterEntries (e2 :: t2) ++ '\x7d' :: r))) (by decide)
        have h5 := parseInnerObj_print e.2 f
          (',' :: (printOuterEntries (e2 :: t2) ++ '\x7d' :: r))
          (by omega) hke.2
        have h6 := skipWs_cons ','
          (printOuterEntries (e2 :: t2) ++ '\x7d' :: r) (by decide)
        rw [h1]
        simp only [parseOuterTail, h2, h3, h4, h5, h6, hrec]

theorem parseOuterObj_print (d : List (String × List (String × DecNum)))
    (fuel : Nat) (r : List Char) (hfuel : outerNeed d ≤ fuel)
    (hkeys : ∀ e ∈ d, (∀ c ∈ e.1.data, c ≠ '"') ∧
      ∀ e2 ∈ e.2, ∀ c ∈ e2.1.data, c ≠ '"') :
    parseOuterObj fuel (printEncDict d ++ r) = some (d, r) := by
  cases d with
  | nil =>
    have h1 : printEncDict [] ++ r = '\x7b' :: ('\x7d' :: r) := by
      simp [printEncDict, printOuterEntries]
    have h2 := skipWs_cons '\x7b' ('\x7d' :: r) (by decide)
    have h3 := skipWs_cons '\x7d' r (by decide)
    rw [h1]
    simp only [parseOuterObj, h2, h3]
  | cons e t =>
    rcases printOuterEntries_cons_head e t with ⟨y, hy⟩
    have h1 : printEncDict (e :: t) ++ r
        = '\x7b' :: (printOuterEntries (e :: t) ++ '\x7d' :: r) := by
      simp [printEncDict]
    have hhead : printOuterEntries (e :: t) ++ '\x7d' :: r
        = '"' :: (y ++ '\x7d' :: r) := by
      rw [hy]
      simp
    have h2 := skipWs_cons '\x7b' ('"' :: (y ++ '\x7d' :: r)) (by decide)
    have h3 := skipWs_cons '"' (y ++ '\x7d' :: r) (by decide)
    have h4 : parseOuterTail fuel ('"' :: (y ++ '\x7d' :: r)) = some (e :: t, r) := by
      rw [← hhead]
      exact parseOuterTail_print (e :: t) fuel r (by simp) hfuel hkeys
    rw [h1, hhead]
    simp only [parseOuterObj, h2, h3, h4]
    rfl

/-! ### Fuel adequacy and the C7 theorem -/

theorem length_printInnerEntries (m : List (String × DecNum)) :
    m.length ≤ (printInnerEntries m).length := by
  induction m with
  | nil => simp [printInnerEntries]
  | cons e t ih =>
    have h1 : 0 < (printInnerEntry e).length := by
      simp [printInnerEntry, printStringLit]
    cases t with
    | nil =>
      simp only [printInnerEntries, List.length_cons, List.length_nil]
      omega
    | cons e2 t2 =>
      simp only [printInnerEntries, List.length_cons, List.length_append] at ih ⊢
      omega

theorem outerNeed_le_length (d : List (String × List (String × DecNum))) :
    outerNeed d ≤ (printOuterEntries d).length := by
  induction d with
  | nil => simp [outerNeed, printOuterEntries]
  | cons e t ih =>
    have hinner : e.2.length ≤ (printInnerEntries e.2).length :=
      length_printInnerEntries e.2
    have hentry : 1 + e.2.length ≤ (printOuterEntry e).length := by
      simp only [printOuterEntry, printInnerObj, printStringLit,
        List.length_append, List.length_cons]
      omega
    cases t with
    | nil =>
      have hne : outerNeed [e] = 1 + e.2.length + 0 := rfl
      rw [hne]
      simp only [printOuterEntries]
      omega
    | cons e2 t2 =>
      have hne : outerNeed (e :: e2 :: t2)
          = 1 + e.2.length + outerNeed (e2 :: t2) := rfl
      rw [hne]
      simp only [printOuterEntries, List.length_append, List.length_cons]
      omega

/-- Claim C7: serializing a fitted encoding dictionary (field name → mapping
of raw category value → serialized float) to the textual dictionary file and
deserializing that file yields the very same dictionary — identical fields
and identical values, so every deserialized value is within any tolerance
(in particular 1e-9) of the original.  The hypothesis reflects that the
modelled printer emits keys verbatim: no key may contain a quote or a
backslash (the two characters `json.dump` would escape). -/
theorem enc_dict_round_trip (d : List (String × List (String × DecNum)))
    (hkeys : ∀ e ∈ d, (∀ c ∈ e.1.data, c ≠ '"' ∧ c ≠ '\\') ∧
      ∀ e2 ∈ e.2, ∀ c ∈ e2.1.data, c ≠ '"' ∧ c ≠ '\\') :
    deserializeEncDict (serializeEncDict d) = some d := by
  have hk2 : ∀ e ∈ d, (∀ c ∈ e.1.data, c ≠ '"') ∧
      ∀ e2 ∈ e.2, ∀ c ∈ e2.1.data, c ≠ '"' :=
    fun e he => ⟨fun c hc => ((hkeys e he).1 c hc).1,
      fun e2 he2 c hc => ((hkeys e he).2 e2 he2 c hc).1⟩
  have h3 : (printEncDict d).length = (printOuterEntries d).length + 2 := by
    simp [printEncDict, List.length_append]
  have hfuel : outerNeed d ≤ (serializeEncDict d).length + 1 := by
    have h1 := outerNeed_le_length d
    have h2 : (serializeEncDict d).length = (printEncDict d).length := rfl
    omega
  have hparse := parseOuterObj_print d ((serializeEncDict d).length + 1) []
    hfuel hk2
  rw [List.append_nil] at hparse
  unfold deserializeEncDict
  have hdata : (serializeEncDict d).data = printEncDict d := rfl
  rw [hdata, hparse]
  rfl

/-- A concrete dictionary with a fraction, an integer, a negative value, a
padded value and an empty inner mapping, exercising every printer branch. -/
def sampleDict : List (String × List (String × DecNum)) :=
  [("posEntryMode",
      [("05", ⟨5, 1⟩), ("81", ⟨1, 0⟩), ("NULL", ⟨-325, 2⟩), ("00", ⟨100, 2⟩)]),
    ("merchantCountry", [])]

theorem enc_dict_round_trip_witness :
    deserializeEncDict (serializeEncDict sampleDict) = some sampleDict :=
  enc_dict_round_trip sampleDict (by decide)

end FraudPipeline
